import Mathlib

/-!
# LinkedBoost front-end (`static/js/app.js`): a shallow embedding

JavaScript strings are sequences of UTF-16 code units; they are modelled as
lists of natural numbers (each unit below 65536).  DOM elements are records of
the properties the code reads or writes, and every handler is a function from
the state it reads to the state it leaves, with the calls it makes on the
host (timers, notifications, `preventDefault`) recorded in the result.
-/

namespace LinkedBoost

/-! ## Strings -/

/-- A JavaScript string: its UTF-16 code units, in order. -/
abbrev JSString := List Nat

/-- UTF-16 code units of one Unicode scalar value. -/
def utf16Char (c : Char) : List Nat :=
  if c.toNat < 0x10000 then [c.toNat]
  else [0xD800 + (c.toNat - 0x10000) / 0x400, 0xDC00 + (c.toNat - 0x10000) % 0x400]

/-- The JavaScript string denoted by a literal. -/
def utf16 (s : String) : JSString :=
  s.toList.flatMap utf16Char

/-- Code units matched by the regular-expression class `\s`, which are also the
units removed by `String.prototype.trim` (ECMAScript WhiteSpace and
LineTerminator). -/
def isWhiteSpace (c : Nat) : Bool :=
  c == 0x09 || c == 0x0A || c == 0x0B || c == 0x0C || c == 0x0D || c == 0x20 ||
  c == 0xA0 || c == 0x1680 || (0x2000 ≤ c && c ≤ 0x200A) || c == 0x2028 ||
  c == 0x2029 || c == 0x202F || c == 0x205F || c == 0x3000 || c == 0xFEFF

/-- The code unit of the space character. -/
def SPACE : Nat := 0x20

/-- The code unit of `@`. -/
def AT : Nat := 0x40

/-- The code unit of `.`. -/
def DOT : Nat := 0x2E

/-- Pieces of a string between the code units satisfying `p`
(`String.prototype.split` with a one-unit separator when `p` tests for it). -/
def splitP (p : Nat → Bool) : JSString → List JSString
  | [] => [[]]
  | c :: cs =>
    if p c then [] :: splitP p cs
    else
      match splitP p cs with
      | [] => [[c]]
      | w :: ws => (c :: w) :: ws

/-- The call `s.split(' ')`. -/
def splitSpace (s : JSString) : List JSString :=
  splitP (fun c => c == SPACE) s

/-- The call `pieces.join(' ')`. -/
def joinSpace : List JSString → JSString
  | [] => []
  | [w] => w
  | w :: ws => w ++ SPACE :: joinSpace ws

/-- The call `s.trimStart()`. -/
def trimStart : JSString → JSString
  | [] => []
  | c :: cs => if isWhiteSpace c then trimStart cs else c :: cs

/-- The call `s.trimEnd()`. -/
def trimEnd : JSString → JSString
  | [] => []
  | c :: cs =>
    match trimEnd cs with
    | [] => if isWhiteSpace c then [] else [c]
    | r :: rs => c :: r :: rs

/-- The call `s.trim()`. -/
def trim (s : JSString) : JSString :=
  trimEnd (trimStart s)

/-! ## Regular expressions of the shape used by `validateEmail` -/

/-- One item of an anchored pattern: a literal code unit, or a character class
repeated one or more times. -/
inductive Item where
  | lit (c : Nat)
  | plus (cls : Nat → Bool)

/-- Whether the whole string matches the sequence of items (`^items$`). -/
def matchItems : List Item → JSString → Bool
  | [], [] => true
  | [], _ :: _ => false
  | _ :: _, [] => false
  | Item.lit c :: rest, x :: xs => x == c && matchItems rest xs
  | Item.plus cls :: rest, x :: xs =>
    cls x && (matchItems (Item.plus cls :: rest) xs || matchItems rest xs)

/-- The class `[^\s@]`. -/
def notSpaceNorAt (c : Nat) : Bool :=
  !isWhiteSpace c && c != AT

/-- The pattern `/^[^\s@]+@[^\s@]+\.[^\s@]+$/`. -/
def emailRe : List Item :=
  [Item.plus notSpaceNorAt, Item.lit AT, Item.plus notSpaceNorAt, Item.lit DOT,
   Item.plus notSpaceNorAt]

/-- The function `window.validateEmail`: `re.test(email)`. -/
def validateEmail (email : JSString) : Bool :=
  matchItems emailRe email

/-- The reading of `validateEmail` in the specification: no whitespace, exactly
one `@`, and a `.` somewhere after it. -/
def emailShapeOfSpec (text : JSString) : Bool :=
  text.all (fun c => !isWhiteSpace c) && text.count AT == 1 &&
  (text.dropWhile (fun c => c != AT)).contains DOT

/-! ## Character counter -/

/-- What the counter element shows after an input event. -/
structure Counter where
  textContent : String
  className : String
  deriving DecidableEq, Repr

/-- The input listener installed by `setupCharacterCounter(inputId, maxLength,
counterId)`, run on the input element's current value. -/
def characterCounterOnInput (maxLength : Int) (value : JSString) : Counter :=
  let remaining : Int := maxLength - value.length
  let textContent := toString value.length ++ "/" ++ toString maxLength
  if remaining < 50 then
    { textContent := textContent, className := "text-warning" }
  else if remaining < 0 then
    { textContent := textContent, className := "text-danger" }
  else
    { textContent := textContent, className := "text-muted" }

/-! ## Values and host functions -/

/-- A value produced by `JSON.parse`.  A finite number is `mantissa * 2 ^ exponent`
(zero exactly when the mantissa is zero). -/
inductive JSVal where
  | null
  | bool (b : Bool)
  | num (mantissa exponent : Int)
  | str (s : JSString)
  | arr (items : List JSVal)
  | obj (entries : List (JSString × JSVal))

/-- The kinds of form control of the model, as `new FormData(form)` tells them
apart: a control whose one entry is its own value (a `textarea` or an `input`
of a text type, without `dirname`), a checkbox or radio button with its
checkedness, and a button.  A `select`, a file input and a hidden input named
`_charset_` have entries of their own and are not forms of this model. -/
inductive ControlKind where
  | text
  | checkable (checked : Bool)
  | button
  deriving DecidableEq, Repr

/-- A form control: its `name` attribute when present, its value, whether it
carries `required`, its class list, whether it is disabled, and its kind. -/
structure Field where
  name : Option JSString
  value : JSString
  required : Bool
  classList : List String
  disabled : Bool
  kind : ControlKind
  deriving DecidableEq, Repr

/-- A form: its controls in document order. -/
abbrev Form := List Field

/-- Functions of the host runtime that the file calls and does not define. -/
structure Host where
  /-- The function `JSON.parse`; `none` when it throws a SyntaxError. -/
  jsonParse : JSString → Option JSVal
  /-- The function `JSON.stringify`, on an object whose values are strings. -/
  jsonStringify : List (JSString × JSString) → JSString
  /-- String conversion of a value that is not a string, as done when the value
  is assigned to `field.value`. -/
  toDOMString : JSVal → JSString
  /-- The method `String.prototype.toUpperCase`. -/
  toUpperCase : JSString → JSString
  /-- The method `String.prototype.toLowerCase`. -/
  toLowerCase : JSString → JSString
  /-- The controls selected by `[name="<key>"]` when the key holds a double
  quote, a backslash or a line break, so that the key is not read as it stands;
  `none` when `querySelector` throws a SyntaxError. -/
  escapedSelector : JSString → Option (Field → Bool)

/-- How a block of statements ends: normally, or by throwing; either way with
the state it has reached. -/
inductive Completion (σ : Type) where
  | normal (state : σ)
  | throw (state : σ)

/-- ToBoolean, with `none` for `undefined`. -/
def truthy : Option JSVal → Bool
  | none => false
  | some JSVal.null => false
  | some (JSVal.bool b) => b
  | some (JSVal.num mantissa _) => mantissa != 0
  | some (JSVal.str s) => !s.isEmpty
  | some (JSVal.arr _) => true
  | some (JSVal.obj _) => true

/-- Property access `data[key]` for a key that no prototype defines: the outer
`none` is the TypeError raised on `null`, the inner `none` is `undefined`. -/
def getMember (data : JSVal) (key : JSString) : Option (Option JSVal) :=
  match data with
  | JSVal.null => none
  | JSVal.obj entries => some (entries.lookup key)
  | _ => some none

/-- The call `Object.entries(data)`; `none` is the TypeError raised on `null`. -/
def objectEntries : JSVal → Option (List (JSString × JSVal))
  | JSVal.null => none
  | JSVal.bool _ => some []
  | JSVal.num _ _ => some []
  | JSVal.str s => some (s.enum.map (fun p => (utf16 (toString p.1), JSVal.str [p.2])))
  | JSVal.arr items => some (items.enum.map (fun p => (utf16 (toString p.1), p.2)))
  | JSVal.obj entries => some entries

/-! ## Status polling -/

/-- The two properties of the `#status-indicator` element that the code writes. -/
structure Badge where
  className : String
  innerHTML : String
  deriving DecidableEq, Repr

/-- The badge, when the element exists, and the delays in milliseconds of the
pending `setTimeout(() => this.checkStatus(), delay)` timers. -/
structure StatusPage where
  indicator : Option Badge
  timers : List Nat
  deriving DecidableEq, Repr

/-- What `fetch('/api/status')` followed by `response.json()` yields: a rejected
fetch, or a response with its HTTP status and its body as read by
`response.json()` (`none` when the body is not JSON). -/
inductive FetchOutcome where
  | networkError
  | response (status : Nat) (json : Option JSVal)

/-- The badge of a reachable service. -/
def onlineBadge : Badge :=
  { className := "badge bg-success",
    innerHTML := "<i class=\"fas fa-circle me-1\"></i>IA Connectée" }

/-- The badge of an unreachable service. -/
def offlineBadge : Badge :=
  { className := "badge bg-danger",
    innerHTML := "<i class=\"fas fa-exclamation-triangle me-1\"></i>IA Hors ligne" }

/-- The method `updateStatusIndicator(isAvailable)`. -/
def updateStatusIndicator (isAvailable : Bool) (indicator : Option Badge) : Option Badge :=
  match indicator with
  | some _ => if isAvailable then some onlineBadge else some offlineBadge
  | none => none

/-- The `try` block of `checkStatus`. -/
def checkStatusTry (outcome : FetchOutcome) (page : StatusPage) : Completion StatusPage :=
  match outcome with
  | FetchOutcome.networkError => Completion.throw page
  | FetchOutcome.response _ none => Completion.throw page
  | FetchOutcome.response _ (some data) =>
    match getMember data (utf16 "ollama_available") with
    | none => Completion.throw page
    | some available =>
      Completion.normal
        { indicator := updateStatusIndicator (truthy available) page.indicator,
          timers := page.timers ++ [30000] }

/-- The method `checkStatus()`, once the request has settled with `outcome`. -/
def checkStatus (outcome : FetchOutcome) (page : StatusPage) : StatusPage :=
  match checkStatusTry outcome page with
  | Completion.normal after => after
  | Completion.throw after =>
    { indicator := updateStatusIndicator false after.indicator, timers := after.timers }

/-! ## Forms -/

/-- The call `classList.add(cls)`. -/
def classListAdd (classList : List String) (cls : String) : List String :=
  if cls ∈ classList then classList else classList ++ [cls]

/-- The call `classList.remove(cls)`. -/
def classListRemove (classList : List String) (cls : String) : List String :=
  classList.filter (fun c => c != cls)

/-- The loop `requiredFields.forEach(...)` of `handleFormSubmit`, threading the
variable `hasEmptyFields`; controls without `required` are not visited. -/
def forEachRequired : Form → Bool → Form × Bool
  | [], hasEmptyFields => ([], hasEmptyFields)
  | field :: rest, hasEmptyFields =>
    if field.required then
      if (trim field.value).isEmpty then
        let r := forEachRequired rest true
        ({ field with classList := classListAdd field.classList "is-invalid" } :: r.1, r.2)
      else
        let r := forEachRequired rest hasEmptyFields
        ({ field with classList := classListRemove field.classList "is-invalid" } :: r.1, r.2)
    else
      let r := forEachRequired rest hasEmptyFields
      (field :: r.1, r.2)

/-- What `handleFormSubmit` leaves behind: the form, the number of calls of
`event.preventDefault()`, the `(message, type)` arguments of the calls of
`showNotification`, and the returned value (`none` for `undefined`). -/
structure SubmitOutcome where
  form : Form
  preventDefaultCalls : Nat
  notifications : List (String × String)
  returned : Option Bool
  deriving DecidableEq, Repr

/-- The method `handleFormSubmit(event)` with `event.target` the given form. -/
def handleFormSubmit (form : Form) : SubmitOutcome :=
  if form.any (fun field => field.required) then
    let r := forEachRequired form false
    if r.2 then
      { form := r.1, preventDefaultCalls := 1,
        notifications := [("Veuillez remplir tous les champs obligatoires", "warning")],
        returned := some false }
    else
      { form := r.1, preventDefaultCalls := 0, notifications := [], returned := none }
  else
    { form := form, preventDefaultCalls := 0, notifications := [], returned := none }

/-! ## Saved form snapshots -/

/-- The forms of the document by element id, and the items of `localStorage`. -/
structure Page where
  forms : JSString → Option Form
  localStorage : JSString → Option JSString

/-- Conversion of a string to a scalar value string: every surrogate that is
not part of a pair becomes U+FFFD. -/
def toScalarValueString : JSString → JSString
  | [] => []
  | [c] => if 0xD800 ≤ c ∧ c ≤ 0xDFFF then [0xFFFD] else [c]
  | c :: d :: rest =>
    if (0xD800 ≤ c ∧ c ≤ 0xDBFF) ∧ (0xDC00 ≤ d ∧ d ≤ 0xDFFF) then
      c :: d :: toScalarValueString rest
    else if 0xD800 ≤ c ∧ c ≤ 0xDFFF then 0xFFFD :: toScalarValueString (d :: rest)
    else c :: toScalarValueString (d :: rest)

/-- Whether `new FormData(form)` takes the control into account: it is not
disabled, not a button, and checked if it is a checkbox or a radio button. -/
def contributes (field : Field) : Bool :=
  !field.disabled &&
    (match field.kind with
     | ControlKind.text => true
     | ControlKind.checkable checked => checked
     | ControlKind.button => false)

/-- The entry list of `new FormData(form)`: one entry per contributing control
with a non-empty name, name and value converted to scalar value strings. -/
def formDataEntries : Form → List (JSString × JSString)
  | [] => []
  | field :: rest =>
    if contributes field then
      match field.name with
      | some name =>
        if name = [] then formDataEntries rest
        else (toScalarValueString name, toScalarValueString field.value)
          :: formDataEntries rest
      | none => formDataEntries rest
    else formDataEntries rest

/-- Definition of a property on an object: replaces the value of an existing
key, or adds the key at the end. -/
def setProperty (object : List (JSString × JSString)) (key value : JSString) :
    List (JSString × JSString) :=
  match object with
  | [] => [(key, value)]
  | (k, v) :: rest =>
    if k = key then (k, value) :: rest else (k, v) :: setProperty rest key value

/-- The array index that a property key denotes: the key is the canonical
decimal text of an integer below `2 ^ 32 - 1`. -/
def arrayIndex (key : JSString) : Option Nat :=
  if key.isEmpty || !key.all (fun c => 0x30 ≤ c && c ≤ 0x39) then none
  else if key.head? == some 0x30 && key.length != 1 then none
  else
    let n := key.foldl (fun acc c => 10 * acc + (c - 0x30)) 0
    if n < 2 ^ 32 - 1 then some n else none

/-- The order in which the properties of an object are enumerated: array
indices in ascending order, then the other keys in order of creation. -/
def propertyOrder (object : List (JSString × JSString)) : List (JSString × JSString) :=
  List.insertionSort (fun a b => (arrayIndex a.1).getD 0 ≤ (arrayIndex b.1).getD 0)
      (object.filter (fun e => (arrayIndex e.1).isSome))
    ++ object.filter (fun e => !(arrayIndex e.1).isSome)

/-- The call `Object.fromEntries(entries)`, as the enumeration of the object
it creates. -/
def objectFromEntries (entries : List (JSString × JSString)) : List (JSString × JSString) :=
  propertyOrder (entries.foldl (fun object entry => setProperty object entry.1 entry.2) [])

/-- The storage key `linkedboost_<formId>`. -/
def storageKey (formId : JSString) : JSString :=
  utf16 "linkedboost_" ++ formId

/-- The method `LinkedBoostApp.saveFormData(formId)`. -/
def saveFormData (H : Host) (page : Page) (formId : JSString) : Page :=
  match page.forms formId with
  | some form =>
    let data := objectFromEntries (formDataEntries form)
    { page with
      localStorage :=
        Function.update page.localStorage (storageKey formId) (some (H.jsonStringify data)) }
  | none => page

/-- Whether a key can stand between the quotes of the selector
`[name="<key>"]` as it is: no double quote, backslash or line break. -/
def selectorSafe (key : JSString) : Bool :=
  key.all (fun c => c != 0x22 && c != 0x5C && c != 0x0A && c != 0x0C && c != 0x0D)

/-- The test made by the selector `[name="<key>"]` for a selector-safe key. -/
def nameIs (key : JSString) (field : Field) : Bool :=
  field.name == some key

/-- The controls selected by `[name="<key>"]`; `none` when `querySelector`
throws a SyntaxError. -/
def nameSelector (H : Host) (key : JSString) : Option (Field → Bool) :=
  if selectorSafe key then some (nameIs key) else H.escapedSelector key

/-- The statements `field = form.querySelector(...); if (field) field.value = value`:
the first selected control, if any, receives the value. -/
def setFirst : Form → (Field → Bool) → JSString → Form
  | [], _, _ => []
  | field :: rest, selects, value =>
    if selects field then { field with value := value } :: rest
    else field :: setFirst rest selects value

/-- The string assigned by `field.value = value`. -/
def assignedString (H : Host) : JSVal → JSString
  | JSVal.str s => s
  | v => H.toDOMString v

/-- The loop `Object.entries(data).forEach(...)` of `loadFormData`; a SyntaxError
of `querySelector` ends it with the assignments made so far. -/
def loadEntries (H : Host) : Form → List (JSString × JSVal) → Completion Form
  | form, [] => Completion.normal form
  | form, (key, value) :: rest =>
    match nameSelector H key with
    | some selects => loadEntries H (setFirst form selects (assignedString H value)) rest
    | none => Completion.throw form

/-- The `try` block of `loadFormData`, entered with a non-empty stored string. -/
def loadFormDataTry (H : Host) (page : Page) (formId saved : JSString) : Completion Page :=
  match H.jsonParse saved with
  | none => Completion.throw page
  | some data =>
    match page.forms formId with
    | none => Completion.normal page
    | some form =>
      match objectEntries data with
      | none => Completion.throw page
      | some entries =>
        match loadEntries H form entries with
        | Completion.normal form1 =>
          Completion.normal { page with forms := Function.update page.forms formId (some form1) }
        | Completion.throw form1 =>
          Completion.throw { page with forms := Function.update page.forms formId (some form1) }

/-- The method `LinkedBoostApp.loadFormData(formId)`: the `catch` clause logs
the error and completes normally. -/
def loadFormData (H : Host) (page : Page) (formId : JSString) : Completion Page :=
  match page.localStorage (storageKey formId) with
  | none => Completion.normal page
  | some saved =>
    if saved = [] then Completion.normal page
    else
      match loadFormDataTry H page formId saved with
      | Completion.normal after => Completion.normal after
      | Completion.throw after => Completion.normal after

/-- The page after the user has edited the form with the given id. -/
def editForm (page : Page) (formId : JSString) (edited : Form) : Page :=
  { page with forms := Function.update page.forms formId (some edited) }

/-! ## Keyboard shortcuts -/

/-- The properties of a `keydown` event that the handler reads. -/
structure KeyEvent where
  key : String
  ctrlKey : Bool
  metaKey : Bool
  shiftKey : Bool
  deriving DecidableEq, Repr

/-- The element `document.activeElement`: its tag name, its value, and whether
`closest('form')` finds a form. -/
structure ActiveElement where
  tagName : String
  value : JSString
  insideForm : Bool
  deriving DecidableEq, Repr

/-- What `handleKeyboardShortcuts` leaves behind: the value of the focused
element, the strings assigned to it in order, and the numbers of calls of
`event.preventDefault()` and of `activeForm.dispatchEvent(new Event('submit'))`. -/
structure KeyOutcome where
  value : JSString
  valueWrites : List JSString
  preventDefaultCalls : Nat
  submitDispatches : Nat
  deriving DecidableEq, Repr

/-- The method `handleKeyboardShortcuts(event)`.  The dispatched event does not
bubble, so no listener of this file runs on it. -/
def handleKeyboardShortcuts (event : KeyEvent) (active : ActiveElement) : KeyOutcome :=
  let afterSubmit : KeyOutcome :=
    if (event.ctrlKey || event.metaKey) && event.key == "Enter" then
      if active.insideForm then
        { value := active.value, valueWrites := [], preventDefaultCalls := 1,
          submitDispatches := 1 }
      else
        { value := active.value, valueWrites := [], preventDefaultCalls := 0,
          submitDispatches := 0 }
    else
      { value := active.value, valueWrites := [], preventDefaultCalls := 0,
        submitDispatches := 0 }
  if event.key == "Escape" then
    if active.tagName == "TEXTAREA" || active.tagName == "INPUT" then
      if event.shiftKey then
        { afterSubmit with value := [], valueWrites := afterSubmit.valueWrites ++ [[]] }
      else afterSubmit
    else afterSubmit
  else afterSubmit

/-! ## Name formatting and whitespace cleanup -/

/-- The arrow function of `formatName`:
`word.charAt(0).toUpperCase() + word.slice(1).toLowerCase()`. -/
def capitalize (H : Host) (word : JSString) : JSString :=
  H.toUpperCase (word.take 1) ++ H.toLowerCase (word.drop 1)

/-- The function `window.formatName`, as the value it leaves in the input. -/
def formatName (H : Host) (value : JSString) : JSString :=
  if value.isEmpty then value
  else joinSpace ((splitSpace value).map (capitalize H))

/-- The call `s.replace(/\s+/g, ' ')`: every maximal run of whitespace becomes
one space.  The flag tells whether the previous unit belonged to a run. -/
def replaceRuns : Bool → JSString → JSString
  | _, [] => []
  | inRun, c :: cs =>
    if isWhiteSpace c then
      if inRun then replaceRuns true cs else SPACE :: replaceRuns true cs
    else c :: replaceRuns false cs

/-- The function `window.cleanSpaces`, as the value it leaves in the input. -/
def cleanSpaces (value : JSString) : JSString :=
  if value.isEmpty then value
  else trim (replaceRuns false value)

/-- The words of a string: its maximal runs of units that are not whitespace. -/
def words (s : JSString) : List JSString :=
  (splitP isWhiteSpace s).filter (fun w => !w.isEmpty)

/-- Which positions of a string hold a space. -/
def spaceMask (s : JSString) : List Bool :=
  s.map (fun c => c == SPACE)

/-! ## A host for closed examples -/

/-- Upper-casing of the letters `a` to `z`. -/
def asciiUpper (s : JSString) : JSString :=
  s.map (fun c => if 0x61 ≤ c ∧ c ≤ 0x7A then c - 0x20 else c)

/-- Lower-casing of the letters `A` to `Z`. -/
def asciiLower (s : JSString) : JSString :=
  s.map (fun c => if 0x41 ≤ c ∧ c ≤ 0x5A then c + 0x20 else c)

/-- A JSON string literal with its quotes and backslashes escaped. -/
def quoteJson (s : JSString) : JSString :=
  0x22 :: (s.flatMap (fun c => if c = 0x22 ∨ c = 0x5C then [0x5C, c] else [c])) ++ [0x22]

/-- The members of a JSON object, separated by commas. -/
def joinMembers : List JSString → JSString
  | [] => []
  | [m] => m
  | m :: ms => m ++ 0x2C :: joinMembers ms

/-- JSON text of an object whose values are strings. -/
def flatStringify (object : List (JSString × JSString)) : JSString :=
  0x7B :: joinMembers (object.map (fun e => quoteJson e.1 ++ 0x3A :: quoteJson e.2)) ++ [0x7D]

/-- Reads a JSON string literal after its opening quote: the string and the
text after the closing quote. -/
def readString : JSString → Option (JSString × JSString)
  | [] => none
  | c :: rest =>
    if c = 0x22 then some ([], rest)
    else if c = 0x5C then
      match rest with
      | [] => none
      | d :: rest1 => (readString rest1).map (fun r => (d :: r.1, r.2))
    else (readString rest).map (fun r => (c :: r.1, r.2))

/-- Reads the members of a JSON object whose values are strings, up to the
closing brace. -/
def readMembers : Nat → JSString → Option (List (JSString × JSVal))
  | 0, _ => none
  | fuel + 1, text =>
    match text with
    | 0x22 :: rest =>
      match readString rest with
      | some (key, 0x3A :: 0x22 :: rest1) =>
        match readString rest1 with
        | some (value, [0x7D]) => some [(key, JSVal.str value)]
        | some (value, 0x2C :: rest2) =>
          (readMembers fuel rest2).map (fun ms => (key, JSVal.str value) :: ms)
        | _ => none
      | _ => none
    | _ => none

/-- A reader of JSON text for objects whose values are strings; other texts are
rejected. -/
def flatParse (text : JSString) : Option JSVal :=
  match text with
  | [0x7B, 0x7D] => some (JSVal.obj [])
  | 0x7B :: rest => (readMembers rest.length rest).map JSVal.obj
  | _ => none

/-- A host with ASCII case mapping, the JSON fragment of flat string objects,
and a SyntaxError for every selector whose key is not selector-safe. -/
def asciiHost : Host :=
  { jsonParse := flatParse,
    jsonStringify := flatStringify,
    toDOMString := fun _ => [],
    toUpperCase := asciiUpper,
    toLowerCase := asciiLower,
    escapedSelector := fun _ => none }

/-- A host whose case mapping is the ASCII one together with two entries of the
Unicode special casing: `ß` (U+00DF) upper-cases to `SS`, and `İ` (U+0130)
lower-cases to `i` followed by U+0307. -/
def specialCasingHost : Host :=
  { asciiHost with
    toUpperCase := fun s => s.flatMap (fun c => if c = 0xDF then [0x53, 0x53] else asciiUpper [c]),
    toLowerCase :=
      fun s => s.flatMap (fun c => if c = 0x130 then [0x69, 0x307] else asciiLower [c]) }

/-- How `handleFormSubmit` leaves a control: name, value, `required`, `disabled`
and kind are kept; a required control carries `is-invalid` exactly when its trimmed value is
empty and keeps its other classes; a control without `required` is untouched. -/
def FieldAfterSubmit (before after : Field) : Prop :=
  after.name = before.name ∧ after.value = before.value ∧
  after.required = before.required ∧ after.disabled = before.disabled ∧
  after.kind = before.kind ∧
  (before.required = true →
    ("is-invalid" ∈ after.classList ↔ trim before.value = []) ∧
    ∀ cls, cls ≠ "is-invalid" → (cls ∈ after.classList ↔ cls ∈ before.classList)) ∧
  (before.required = false → after = before)

/-- Whether some required control of the form is empty once trimmed. -/
def hasEmptyRequired (form : Form) : Bool :=
  form.any (fun field => field.required && (trim field.value).isEmpty)

/-- A control after the assignments of `loadFormData`, when its name occurs at
most once among the keys and in the form: it takes the value of the entry with
its name, if there is one. -/
def restoreFrom (H : Host) (entries : List (JSString × JSVal)) (field : Field) : Field :=
  match entries.find? (fun x => nameIs x.1 field) with
  | some x => { field with value := assignedString H x.2 }
  | none => field

/-- The assignments of `loadFormData` for a list of entries, none of which
throws. -/
def applyEntries (H : Host) (form : Form) (entries : List (JSString × JSVal)) : Form :=
  entries.foldl (fun fm e => setFirst fm (nameIs e.1) (assignedString H e.2)) form

/-- The state with which a block ended. -/
def Completion.state {σ : Type} : Completion σ → σ
  | Completion.normal s => s
  | Completion.throw s => s

/-- An enabled text control. -/
def textField (name value : JSString) : Field :=
  { name := some name, value := value, required := false, classList := [], disabled := false,
    kind := ControlKind.text }

/-- A form with two controls that share the name `a`, holding `x` and `y`. -/
def twinForm : Form :=
  [textField (utf16 "a") (utf16 "x"), textField (utf16 "a") (utf16 "y")]

/-- A form with the controls `first` and `last`. -/
def nameForm (first last : JSString) : Form :=
  [{ textField (utf16 "first") first with required := true }, textField (utf16 "last") last]

/-- A form with the controls `first` and `last` and a disabled control `role`. -/
def profileForm (first last role : JSString) : Form :=
  [textField (utf16 "first") first, textField (utf16 "last") last,
   { textField (utf16 "role") role with disabled := true }]

/-- A form with one disabled control `d`. -/
def disabledForm (value : JSString) : Form :=
  [{ textField (utf16 "d") value with disabled := true }]

/-- What `saveFormData` followed by `loadFormData` leaves in a control that was
edited in between: the saved value as a scalar value string when the control
contributed to the snapshot, the edited value otherwise. -/
def restoreSaved (saved edited : Field) : Field :=
  if contributes saved then { edited with value := toScalarValueString saved.value }
  else edited

/-- A page whose only form has the id `f`, with the given stored items. -/
def pageWith (form : Form) (localStorage : JSString → Option JSString) : Page :=
  { forms := fun id => if id = utf16 "f" then some form else none,
    localStorage := localStorage }

/-- No two spaces stand next to each other. -/
def NoDoubleSpace (s : JSString) : Prop :=
  ∀ i, s[i]? = some SPACE → s[i + 1]? ≠ some SPACE

/-- Two lists of pieces with the same first piece and the same non-empty pieces
after it. -/
def SamePieces (xs ys : List JSString) : Prop :=
  ∃ h t u, xs = h :: t ∧ ys = h :: u ∧
    t.filter (fun w => !w.isEmpty) = u.filter (fun w => !w.isEmpty)

/-! ## Character counter: the branch order -/

/-- C1 (behaviour of the code): the listener shows `<length>/<maxLength>`, but it
tests `remaining < 50` before `remaining < 0`, so it never selects
`text-danger`: with `maxLength = 100` a value of length 101 gets `text-warning`
(lengths 51 and 10 get `text-warning` and `text-muted`). -/
theorem characterCounter_danger_unreachable :
    (∀ (maxLength : Int) (value : JSString),
      (characterCounterOnInput maxLength value).textContent
          = toString value.length ++ "/" ++ toString maxLength ∧
      (characterCounterOnInput maxLength value).className ≠ "text-danger" ∧
      (maxLength - value.length < 50 →
        (characterCounterOnInput maxLength value).className = "text-warning") ∧
      (50 ≤ maxLength - value.length →
        (characterCounterOnInput maxLength value).className = "text-muted")) ∧
    (characterCounterOnInput 100 (List.replicate 101 0x61)).className = "text-warning" ∧
    (characterCounterOnInput 100 (List.replicate 51 0x61)).className = "text-warning" ∧
    (characterCounterOnInput 100 (List.replicate 10 0x61)).className = "text-muted" := by
  refine ⟨?_, by decide, by decide, by decide⟩
  intro maxLength value
  unfold characterCounterOnInput
  refine ⟨?_, ?_, ?_, ?_⟩
  · simp only []
    split_ifs <;> rfl
  · simp only []
    split_ifs with h1 h2
    · simp
    · omega
    · simp
  · intro h
    simp only []
    rw [if_pos h]
  · intro h
    simp only []
    rw [if_neg (by omega), if_neg (by omega)]

/-! ## Status polling -/

/-- C4 (behaviour of the code): the timer is set inside the `try` block, so
`checkStatus` schedules one further call after 30000 ms only when the body was
read and the availability field could be accessed; after a network error, an
unreadable body or a `null` body it schedules nothing. -/
theorem checkStatus_reschedules_only_on_success (page : StatusPage) :
    (checkStatus FetchOutcome.networkError page).timers = page.timers ∧
    (∀ status, (checkStatus (FetchOutcome.response status none) page).timers = page.timers) ∧
    (∀ status,
      (checkStatus (FetchOutcome.response status (some JSVal.null)) page).timers
        = page.timers) ∧
    (∀ status data available, getMember data (utf16 "ollama_available") = some available →
      (checkStatus (FetchOutcome.response status (some data)) page).timers
        = page.timers ++ [30000]) := by
  refine ⟨rfl, fun _ => rfl, fun _ => rfl, ?_⟩
  intro status data available h
  simp [checkStatus, checkStatusTry, h]

/-- C6 (the claim fails): a response with HTTP status 500 whose body is
`\x7b"ollama_available": true\x7d` turns an offline badge into the online badge. -/
theorem checkStatus_ignores_http_status :
    (checkStatus
      (FetchOutcome.response 500
        (some (JSVal.obj [(utf16 "ollama_available", JSVal.bool true)])))
      { indicator := some offlineBadge, timers := [] }).indicator = some onlineBadge := by
  decide

/-- C6 (amended): when the badge element exists, a network error and an
unreadable body set the offline badge, and a response of any HTTP status whose
body was read sets the online badge exactly when the body is not `null` and its
`ollama_available` member is truthy, and the offline badge otherwise. -/
theorem checkStatus_badge (badge : Badge) (timers : List Nat) :
    (checkStatus FetchOutcome.networkError
      { indicator := some badge, timers := timers }).indicator = some offlineBadge ∧
    (∀ status,
      (checkStatus (FetchOutcome.response status none)
        { indicator := some badge, timers := timers }).indicator = some offlineBadge) ∧
    (∀ status data,
      ((checkStatus (FetchOutcome.response status (some data))
          { indicator := some badge, timers := timers }).indicator = some onlineBadge ↔
        ∃ available, getMember data (utf16 "ollama_available") = some available ∧
          truthy available = true) ∧
      ((checkStatus (FetchOutcome.response status (some data))
          { indicator := some badge, timers := timers }).indicator = some offlineBadge ↔
        ¬ ∃ available, getMember data (utf16 "ollama_available") = some available ∧
          truthy available = true)) := by
  have hne : onlineBadge ≠ offlineBadge := by decide
  refine ⟨rfl, fun _ => rfl, ?_⟩
  intro status data
  cases h : getMember data (utf16 "ollama_available") with
  | none =>
    simp [checkStatus, checkStatusTry, h, updateStatusIndicator, hne.symm]
  | some available =>
    cases ht : truthy available <;>
      simp [checkStatus, checkStatusTry, h, updateStatusIndicator, ht, hne, hne.symm]

/-! ## Keyboard shortcuts -/

/-- C10: `handleKeyboardShortcuts` assigns the empty string to the focused element
exactly when the key is Escape, Shift is held and the element is a TEXTAREA or
an INPUT; for every other event it assigns nothing and the value stays. -/
theorem handleKeyboardShortcuts_clears_iff (event : KeyEvent) (active : ActiveElement) :
    ((handleKeyboardShortcuts event active).valueWrites = [[]] ↔
      (event.key = "Escape" ∧ event.shiftKey = true ∧
        (active.tagName = "TEXTAREA" ∨ active.tagName = "INPUT"))) ∧
    ((event.key = "Escape" ∧ event.shiftKey = true ∧
        (active.tagName = "TEXTAREA" ∨ active.tagName = "INPUT")) →
      (handleKeyboardShortcuts event active).value = []) ∧
    (¬ (event.key = "Escape" ∧ event.shiftKey = true ∧
        (active.tagName = "TEXTAREA" ∨ active.tagName = "INPUT")) →
      (handleKeyboardShortcuts event active).value = active.value ∧
      (handleKeyboardShortcuts event active).valueWrites = []) := by
  unfold handleKeyboardShortcuts
  by_cases hk : event.key = "Escape"
  · have hEnter : ¬ event.key = "Enter" := by rw [hk]; decide
    by_cases hs : event.shiftKey = true
    · by_cases ht : active.tagName = "TEXTAREA"
      · simp [hk, hs, ht]
      · by_cases hi : active.tagName = "INPUT"
        · simp [hk, hs, hi]
        · simp [hk, hs, ht, hi]
    · by_cases ht : active.tagName = "TEXTAREA"
      · simp [hk, hs, ht]
      · by_cases hi : active.tagName = "INPUT"
        · simp [hk, hs, hi]
        · simp [hk, hs, ht, hi]
  · by_cases h1 : (event.ctrlKey || event.metaKey) = true
    · by_cases h2 : event.key = "Enter"
      · by_cases h3 : active.insideForm = true <;> simp [hk, h1, h2, h3]
      · simp [hk, h1, h2]
    · simp [hk, h1]

/-! ## Form submission -/

theorem mem_classListAdd_self (classList : List String) (cls : String) :
    cls ∈ classListAdd classList cls := by
  unfold classListAdd
  split_ifs with h
  · exact h
  · simp

theorem mem_classListAdd_of_ne (classList : List String) (cls other : String)
    (h : other ≠ cls) : other ∈ classListAdd classList cls ↔ other ∈ classList := by
  unfold classListAdd
  split_ifs with h1
  · rfl
  · simp [h]

theorem not_mem_classListRemove_self (classList : List String) (cls : String) :
    cls ∉ classListRemove classList cls := by
  simp [classListRemove]

theorem mem_classListRemove_of_ne (classList : List String) (cls other : String)
    (h : other ≠ cls) : other ∈ classListRemove classList cls ↔ other ∈ classList := by
  simp [classListRemove, h]

theorem forEachRequired_flag (form : Form) (flag : Bool) :
    (forEachRequired form flag).2 = (flag || hasEmptyRequired form) := by
  induction form generalizing flag with
  | nil => simp [forEachRequired, hasEmptyRequired]
  | cons field rest ih =>
    have hcons : hasEmptyRequired (field :: rest)
        = ((field.required && (trim field.value).isEmpty) || hasEmptyRequired rest) := by
      simp [hasEmptyRequired]
    rw [hcons]
    unfold forEachRequired
    by_cases hr : field.required = true
    · by_cases he : (trim field.value).isEmpty = true
      · rw [if_pos hr, if_pos he]
        show (forEachRequired rest true).2 = _
        rw [ih, hr, he]
        simp
      · rw [if_pos hr, if_neg he]
        show (forEachRequired rest flag).2 = _
        rw [ih, hr]
        simp [he]
    · rw [if_neg hr]
      show (forEachRequired rest flag).2 = _
      rw [ih]
      simp [hr]

theorem forEachRequired_fields (form : Form) (flag : Bool) :
    List.Forall₂ FieldAfterSubmit form (forEachRequired form flag).1 := by
  induction form generalizing flag with
  | nil => simp [forEachRequired]
  | cons field rest ih =>
    unfold forEachRequired
    by_cases hr : field.required = true
    · by_cases he : (trim field.value).isEmpty = true
      · simp only [hr, he, if_true]
        refine List.Forall₂.cons ?_ (ih true)
        refine ⟨rfl, rfl, by simp [hr], rfl, rfl, fun _ => ⟨?_, ?_⟩, fun h => ?_⟩
        · simp only [mem_classListAdd_self, true_iff]
          exact List.isEmpty_iff.mp he
        · intro cls hc
          exact mem_classListAdd_of_ne _ _ _ hc
        · rw [hr] at h
          cases h
      · simp only [hr, he, if_true]
        refine List.Forall₂.cons ?_ (ih flag)
        refine ⟨rfl, rfl, by simp [hr], rfl, rfl, fun _ => ⟨?_, ?_⟩, fun h => ?_⟩
        · constructor
          · intro h
            exact absurd h (not_mem_classListRemove_self _ _)
          · intro h
            exact absurd (List.isEmpty_iff.mpr h) he
        · intro cls hc
          exact mem_classListRemove_of_ne _ _ _ hc
        · rw [hr] at h
          cases h
    · simp only [hr]
      refine List.Forall₂.cons ?_ (ih flag)
      refine ⟨rfl, rfl, rfl, rfl, rfl, fun h => absurd h hr, fun _ => rfl⟩

theorem forall₂_fieldAfterSubmit_self (form : Form)
    (h : ∀ field ∈ form, field.required = false) :
    List.Forall₂ FieldAfterSubmit form form := by
  induction form with
  | nil => exact List.Forall₂.nil
  | cons field rest ih =>
    refine List.Forall₂.cons ?_ (ih (fun f hf => h f (List.mem_cons_of_mem _ hf)))
    have hr := h field (List.mem_cons_self _ _)
    refine ⟨rfl, rfl, rfl, rfl, rfl, fun h1 => ?_, fun _ => rfl⟩
    rw [hr] at h1
    cases h1

theorem hasEmptyRequired_iff (form : Form) :
    hasEmptyRequired form = true ↔
      ∃ field ∈ form, field.required = true ∧ trim field.value = [] := by
  simp [hasEmptyRequired, List.any_eq_true, List.isEmpty_iff]

/-- C5: after `handleFormSubmit`, control by control (`FieldAfterSubmit`), a
required control carries `is-invalid` exactly when its trimmed value is empty,
and nothing else about the controls changes; `preventDefault` is called once and
one `warning` notification is raised exactly when some required control is
empty after trimming; a form without required controls is left as it was and is
not blocked. -/
theorem handleFormSubmit_validates (form : Form) :
    List.Forall₂ FieldAfterSubmit form (handleFormSubmit form).form ∧
    ((∃ field ∈ form, field.required = true ∧ trim field.value = []) →
      (handleFormSubmit form).preventDefaultCalls = 1 ∧
      (handleFormSubmit form).notifications
        = [("Veuillez remplir tous les champs obligatoires", "warning")]) ∧
    ((¬ ∃ field ∈ form, field.required = true ∧ trim field.value = []) →
      (handleFormSubmit form).preventDefaultCalls = 0 ∧
      (handleFormSubmit form).notifications = []) ∧
    ((∀ field ∈ form, field.required = false) →
      (handleFormSubmit form).form = form ∧
      (handleFormSubmit form).preventDefaultCalls = 0 ∧
      (handleFormSubmit form).notifications = []) := by
  have hflag := forEachRequired_flag form false
  have hfields := forEachRequired_fields form false
  rw [Bool.false_or] at hflag
  by_cases hany : form.any (fun field => field.required) = true
  · by_cases hempty : hasEmptyRequired form = true
    · have hex := (hasEmptyRequired_iff form).mp hempty
      have h2 : (forEachRequired form false).2 = true := by rw [hflag, hempty]
      refine ⟨?_, ?_, ?_, ?_⟩
      · simpa [handleFormSubmit, hany, h2] using hfields
      · intro _
        simp [handleFormSubmit, hany, h2]
      · intro hno
        exact absurd hex hno
      · intro hall
        obtain ⟨field, hmem, hreq, _⟩ := hex
        rw [hall field hmem] at hreq
        cases hreq
    · have hno : ¬ ∃ field ∈ form, field.required = true ∧ trim field.value = [] :=
        fun hex => hempty ((hasEmptyRequired_iff form).mpr hex)
      have h2 : (forEachRequired form false).2 = false := by
        rw [hflag]
        simpa using hempty
      refine ⟨?_, ?_, ?_, ?_⟩
      · simpa [handleFormSubmit, hany, h2] using hfields
      · intro hex
        exact absurd hex hno
      · intro _
        simp [handleFormSubmit, hany, h2]
      · intro hall
        rw [List.any_eq_true] at hany
        obtain ⟨field, hmem, hreq⟩ := hany
        rw [hall field hmem] at hreq
        cases hreq
  · have hall : ∀ field ∈ form, field.required = false := by
      intro field hmem
      by_contra hreq
      apply hany
      rw [List.any_eq_true]
      exact ⟨field, hmem, by simpa using hreq⟩
    have hno : ¬ ∃ field ∈ form, field.required = true ∧ trim field.value = [] := by
      rintro ⟨field, hmem, hreq, _⟩
      rw [hall field hmem] at hreq
      cases hreq
    refine ⟨?_, ?_, ?_, ?_⟩
    · simpa [handleFormSubmit, hany] using forall₂_fieldAfterSubmit_self form hall
    · intro hex
      exact absurd hex hno
    · intro _
      simp [handleFormSubmit, hany]
    · intro _
      simp [handleFormSubmit, hany]

/-! ## Saved form snapshots -/

theorem page_update_self (page : Page) (formId : JSString) (form : Form)
    (h : page.forms formId = some form) :
    ({ page with forms := Function.update page.forms formId (some form) } : Page) = page := by
  have : Function.update page.forms formId (some form) = page.forms := by
    rw [← h]
    exact Function.update_eq_self formId page.forms
  rw [this]

/-- C7: when the stored snapshot is not valid JSON, or parses to `null` or to a
value without entries, `loadFormData` completes normally and leaves the page,
with every control of the form, as it was. -/
theorem loadFormData_ignores_malformed (H : Host) (page : Page) (formId saved : JSString)
    (hsaved : page.localStorage (storageKey formId) = some saved)
    (hbad : H.jsonParse saved = none ∨
      ∃ data, H.jsonParse saved = some data ∧
        (objectEntries data = none ∨ objectEntries data = some [])) :
    loadFormData H page formId = Completion.normal page := by
  unfold loadFormData
  rw [hsaved]
  by_cases hs : saved = []
  · simp [hs]
  · simp only [hs, if_false]
    unfold loadFormDataTry
    rcases hbad with hp | ⟨data, hp, he | he⟩
    · simp [hp]
    · rw [hp]
      cases hf : page.forms formId with
      | none => simp
      | some form => simp [he]
    · rw [hp]
      cases hf : page.forms formId with
      | none => simp
      | some form =>
        simp only [he, loadEntries]
        rw [page_update_self page formId form hf]

/-- C7 at a concrete input: the stored text `not json`. -/
theorem loadFormData_ignores_malformed_witness :
    asciiHost.jsonParse (utf16 "not json") = none ∧
    loadFormData asciiHost
        (pageWith (nameForm (utf16 "Ada") []) (fun _ => some (utf16 "not json"))) (utf16 "f")
      = Completion.normal
        (pageWith (nameForm (utf16 "Ada") []) (fun _ => some (utf16 "not json"))) :=
  ⟨rfl,
   loadFormData_ignores_malformed asciiHost
     (pageWith (nameForm (utf16 "Ada") []) (fun _ => some (utf16 "not json")))
     (utf16 "f") (utf16 "not json") rfl (Or.inl rfl)⟩

theorem setProperty_of_not_mem (object : List (JSString × JSString)) (key value : JSString)
    (h : key ∉ object.map Prod.fst) : setProperty object key value = object ++ [(key, value)] := by
  induction object with
  | nil => rfl
  | cons e rest ih =>
    obtain ⟨k, v⟩ := e
    simp only [List.map_cons, List.mem_cons, not_or] at h
    unfold setProperty
    rw [if_neg (fun hk => h.1 hk.symm), ih h.2]
    rfl

theorem foldl_setProperty_nodup (entries object : List (JSString × JSString))
    (hnodup : (entries.map Prod.fst).Nodup)
    (hdisj : ∀ e ∈ entries, e.1 ∉ object.map Prod.fst) :
    entries.foldl (fun o e => setProperty o e.1 e.2) object = object ++ entries := by
  induction entries generalizing object with
  | nil => simp
  | cons e rest ih =>
    simp only [List.map_cons, List.nodup_cons] at hnodup
    rw [List.foldl_cons, setProperty_of_not_mem object e.1 e.2 (hdisj e (List.mem_cons_self _ _))]
    rw [ih (object ++ [(e.1, e.2)]) hnodup.2]
    · simp
    · intro x hx
      simp only [List.map_append, List.map_cons, List.map_nil, List.mem_append,
        List.mem_singleton, not_or]
      refine ⟨hdisj x (List.mem_cons_of_mem _ hx), fun hxe => hnodup.1 ?_⟩
      rw [← hxe]
      exact List.mem_map_of_mem Prod.fst hx

theorem objectFromEntries_nodup (entries : List (JSString × JSString))
    (hnodup : (entries.map Prod.fst).Nodup) :
    objectFromEntries entries = propertyOrder entries := by
  unfold objectFromEntries
  rw [foldl_setProperty_nodup entries [] hnodup (by simp)]
  simp

theorem propertyOrder_perm (object : List (JSString × JSString)) :
    (propertyOrder object).Perm object := by
  unfold propertyOrder
  refine List.Perm.trans (List.Perm.append_right _ (List.perm_insertionSort _ _)) ?_
  have h := List.filter_append_perm (fun e : JSString × JSString => (arrayIndex e.1).isSome)
    object
  simpa using h

theorem formDataEntries_named (form : Form)
    (h : ∀ field ∈ form, ∃ n, field.name = some n ∧ n ≠ [] ∧ toScalarValueString n = n) :
    formDataEntries form
      = (form.filter contributes).map
          (fun field => (field.name.getD [], toScalarValueString field.value)) := by
  induction form with
  | nil => rfl
  | cons field rest ih =>
    obtain ⟨n, hn, hne, hwf⟩ := h field (List.mem_cons_self _ _)
    have ih1 := ih (fun f hf => h f (List.mem_cons_of_mem _ hf))
    unfold formDataEntries
    by_cases hc : contributes field = true
    · rw [if_pos hc, hn]
      simp only [hne, if_false, List.filter_cons, hc, if_true, List.map_cons, hn,
        Option.getD_some, hwf]
      rw [ih1]
    · rw [if_neg hc, ih1]
      simp only [List.filter_cons, hc, Bool.false_eq_true, if_false]

theorem loadEntries_safe (H : Host) (form : Form) (entries : List (JSString × JSVal))
    (h : ∀ e ∈ entries, selectorSafe e.1 = true) :
    loadEntries H form entries = Completion.normal (applyEntries H form entries) := by
  induction entries generalizing form with
  | nil => rfl
  | cons e rest ih =>
    obtain ⟨k, v⟩ := e
    have hk : selectorSafe k = true := h (k, v) (List.mem_cons_self _ _)
    unfold loadEntries
    simp only [nameSelector, hk, if_true]
    rw [ih _ (fun x hx => h x (List.mem_cons_of_mem _ hx))]
    rfl

theorem map_name_setFirst (form : Form) (selects : Field → Bool) (value : JSString) :
    (setFirst form selects value).map Field.name = form.map Field.name := by
  induction form with
  | nil => rfl
  | cons e es ih =>
    unfold setFirst
    split_ifs
    · rfl
    · rw [List.map_cons, List.map_cons, ih]

theorem setFirst_eq_map (form : Form) (key value : JSString)
    (hnodup : (form.map Field.name).Nodup) :
    setFirst form (nameIs key) value
      = form.map (fun e => if nameIs key e = true then { e with value := value } else e) := by
  induction form with
  | nil => rfl
  | cons e es ih =>
    simp only [List.map_cons, List.nodup_cons] at hnodup
    unfold setFirst
    by_cases he : nameIs key e = true
    · rw [if_pos he, List.map_cons, if_pos he]
      congr 1
      symm
      have hall : ∀ x ∈ es, (if nameIs key x = true then { x with value := value } else x) = x := by
        intro x hx
        rw [if_neg]
        intro hxk
        apply hnodup.1
        have h1 : e.name = some key := by simpa [nameIs] using he
        have h2 : x.name = some key := by simpa [nameIs] using hxk
        rw [h1, ← h2]
        exact List.mem_map_of_mem Field.name hx
      rw [List.map_congr_left hall]
      exact List.map_id es
    · rw [if_neg he, List.map_cons, if_neg he, ih hnodup.2]

theorem restoreFrom_nil (H : Host) (field : Field) : restoreFrom H [] field = field := rfl

theorem applyEntries_eq_map (H : Host) (form : Form) (entries : List (JSString × JSVal))
    (hnodup : (form.map Field.name).Nodup) (hkeys : (entries.map Prod.fst).Nodup) :
    applyEntries H form entries = form.map (restoreFrom H entries) := by
  induction entries generalizing form with
  | nil =>
    show form = form.map (restoreFrom H [])
    rw [List.map_congr_left (fun x _ => restoreFrom_nil H x)]
    exact (List.map_id form).symm
  | cons kv rest ih =>
    obtain ⟨k, v⟩ := kv
    simp only [List.map_cons, List.nodup_cons] at hkeys
    have hstep : applyEntries H form ((k, v) :: rest)
        = applyEntries H (setFirst form (nameIs k) (assignedString H v)) rest := rfl
    rw [hstep, ih _ (by rw [map_name_setFirst]; exact hnodup) hkeys.2,
      setFirst_eq_map form k _ hnodup, List.map_map]
    apply List.map_congr_left
    intro e _
    simp only [Function.comp]
    by_cases he : nameIs k e = true
    · have hnone : rest.find? (fun x => nameIs x.1 e) = none := by
        rw [List.find?_eq_none]
        intro x hx hxe
        apply hkeys.1
        have h1 : e.name = some k := by simpa [nameIs] using he
        have h2 : e.name = some x.1 := by simpa [nameIs] using hxe
        rw [h1, Option.some.injEq] at h2
        rw [h2]
        exact List.mem_map_of_mem Prod.fst hx
      have hnone1 : rest.find? (fun x => nameIs x.1
          ({ e with value := assignedString H v } : Field)) = none := hnone
      rw [if_pos he]
      unfold restoreFrom
      rw [hnone1, List.find?_cons]
      simp only [he]
    · rw [if_neg he]
      unfold restoreFrom
      rw [List.find?_cons]
      simp only [he]

theorem find?_of_mem_nodup (entries : List (JSString × JSVal)) (field : Field)
    (key : JSString) (value : JSVal) (hname : field.name = some key)
    (hmem : (key, value) ∈ entries) (hkeys : (entries.map Prod.fst).Nodup) :
    entries.find? (fun x => nameIs x.1 field) = some (key, value) := by
  induction entries with
  | nil => cases hmem
  | cons kv rest ih =>
    simp only [List.map_cons, List.nodup_cons] at hkeys
    rw [List.find?_cons]
    rcases List.mem_cons.mp hmem with heq | hrest
    · rw [← heq]
      simp [nameIs, hname]
    · have hne : nameIs kv.1 field = false := by
        simp only [nameIs, hname, beq_eq_false_iff_ne, ne_eq, Option.some.injEq]
        intro hk
        apply hkeys.1
        rw [← hk]
        exact List.mem_map_of_mem Prod.fst hrest
      simp only [hne]
      exact ih hrest hkeys.2

theorem map_restoreFrom_eq (H : Host) (entries : List (JSString × JSVal))
    (hkeys : (entries.map Prod.fst).Nodup) (form edited : Form)
    (hedit : edited.map Field.name = form.map Field.name)
    (hin : ∀ field ∈ form, contributes field = true →
      ∃ n, field.name = some n ∧ (n, JSVal.str (toScalarValueString field.value)) ∈ entries)
    (hout : ∀ field ∈ form, ¬ contributes field = true →
      ∀ x ∈ entries, field.name ≠ some x.1) :
    edited.map (restoreFrom H entries) = List.zipWith restoreSaved form edited := by
  induction form generalizing edited with
  | nil =>
    cases edited with
    | nil => rfl
    | cons e es => simp at hedit
  | cons f fs ih =>
    cases edited with
    | nil => simp at hedit
    | cons e es =>
      simp only [List.map_cons, List.cons.injEq] at hedit
      have htail := ih es hedit.2 (fun g hg => hin g (List.mem_cons_of_mem _ hg))
        (fun g hg => hout g (List.mem_cons_of_mem _ hg))
      have hhead : restoreFrom H entries e = restoreSaved f e := by
        by_cases hc : contributes f = true
        · obtain ⟨n, hn, hmem⟩ := hin f (List.mem_cons_self _ _) hc
          have hfound := find?_of_mem_nodup entries e n
            (JSVal.str (toScalarValueString f.value)) (by rw [hedit.1, hn]) hmem hkeys
          unfold restoreFrom restoreSaved
          rw [hfound, if_pos hc]
          rfl
        · have hnone : entries.find? (fun x => nameIs x.1 e) = none := by
            rw [List.find?_eq_none]
            intro x hx hxe
            apply hout f (List.mem_cons_self _ _) hc x hx
            rw [← hedit.1]
            simpa [nameIs] using hxe
          unfold restoreFrom restoreSaved
          rw [hnone, if_neg hc]
      rw [List.map_cons, List.zipWith_cons_cons, hhead, htail]

theorem zipWith_restoreSaved_value (form edited : Form)
    (hlen : edited.length = form.length)
    (h : ∀ field ∈ form,
      contributes field = true ∧ toScalarValueString field.value = field.value) :
    (List.zipWith restoreSaved form edited).map Field.value = form.map Field.value := by
  induction form generalizing edited with
  | nil => simp
  | cons f fs ih =>
    cases edited with
    | nil => simp at hlen
    | cons e es =>
      simp only [List.length_cons, Nat.add_right_cancel_iff] at hlen
      obtain ⟨hc, hv⟩ := h f (List.mem_cons_self _ _)
      rw [List.zipWith_cons_cons, List.map_cons, List.map_cons,
        ih es hlen (fun g hg => h g (List.mem_cons_of_mem _ hg))]
      simp only [restoreSaved, hc, if_true, hv]

/-- C3 (the claim fails): on a form whose two controls share the name `a` and
hold `x` and `y`, the snapshot is `\x7b"a":"y"\x7d`, and after saving and loading
the first control holds `y`, not the `x` it held when the form was saved; a
disabled control saved with `x` and edited to `z` still holds `z`; and a control
saved with the unpaired surrogate U+D800 holds U+FFFD. -/
theorem saveLoad_shared_name_overwrites :
    (twinForm.map Field.value = [utf16 "x", utf16 "y"] ∧
      asciiHost.jsonStringify (objectFromEntries (formDataEntries twinForm))
        = utf16 "\x7b\"a\":\"y\"\x7d" ∧
      ((loadFormData asciiHost
          (editForm (saveFormData asciiHost (pageWith twinForm (fun _ => none)) (utf16 "f"))
            (utf16 "f") twinForm)
          (utf16 "f")).state.forms (utf16 "f")).map (List.map Field.value)
        = some [utf16 "y", utf16 "y"]) ∧
    ((loadFormData asciiHost
        (editForm
          (saveFormData asciiHost (pageWith (disabledForm (utf16 "x")) (fun _ => none))
            (utf16 "f"))
          (utf16 "f") (disabledForm (utf16 "z")))
        (utf16 "f")).state.forms (utf16 "f")).map (List.map Field.value)
      = some [utf16 "z"] ∧
    ((loadFormData asciiHost
        (editForm
          (saveFormData asciiHost (pageWith [textField (utf16 "k") [0xD800]] (fun _ => none))
            (utf16 "f"))
          (utf16 "f") [textField (utf16 "k") (utf16 "z")])
        (utf16 "f")).state.forms (utf16 "f")).map (List.map Field.value)
      = some [[0xFFFD]] := by
  refine ⟨⟨by decide, by decide, by decide⟩, by decide, by decide⟩

/-- C3 (amended): on a form whose controls all have names that are non-empty,
selector-safe, scalar value strings and pairwise different, and with a host
whose `JSON.parse` reads back what `JSON.stringify` wrote for the snapshot,
`saveFormData` followed by `loadFormData`, whatever the values were changed to
in between, completes normally and leaves the form as `restoreSaved` says:
every control that `new FormData(form)` takes into account holds the value it
had when the form was saved, as a scalar value string, and every other control
is as it was edited; so when all controls are taken into account and their
saved values are scalar value strings, every control holds exactly the value it
had when the form was saved. -/
theorem saveFormData_loadFormData_roundtrip (H : Host) (page : Page) (formId : JSString)
    (form edited : Form)
    (hform : page.forms formId = some form)
    (hnames : ∀ field ∈ form, ∃ n, field.name = some n ∧ n ≠ [] ∧ selectorSafe n = true ∧
      toScalarValueString n = n)
    (hnodup : (form.map Field.name).Nodup)
    (hedit : edited.map Field.name = form.map Field.name)
    (htext : H.jsonStringify (objectFromEntries (formDataEntries form)) ≠ [])
    (hjson : H.jsonParse (H.jsonStringify (objectFromEntries (formDataEntries form)))
      = some (JSVal.obj
          ((objectFromEntries (formDataEntries form)).map (fun e => (e.1, JSVal.str e.2))))) :
    ∃ after,
      loadFormData H (editForm (saveFormData H page formId) formId edited) formId
        = Completion.normal after ∧
      after.forms formId = some (List.zipWith restoreSaved form edited) ∧
      ((∀ field ∈ form,
          contributes field = true ∧ toScalarValueString field.value = field.value) →
        (List.zipWith restoreSaved form edited).map Field.value = form.map Field.value) := by
  have hnames1 : ∀ field ∈ form, ∃ n, field.name = some n ∧ n ≠ [] ∧
      toScalarValueString n = n :=
    fun f hf => let ⟨n, h1, h2, _, h4⟩ := hnames f hf; ⟨n, h1, h2, h4⟩
  have hkeys : (((form.filter contributes).map
      (fun field => (field.name.getD [], toScalarValueString field.value))).map Prod.fst).Nodup := by
    have hmap : ((form.filter contributes).map
        (fun field => (field.name.getD [], toScalarValueString field.value))).map Prod.fst
        = ((form.filter contributes).map Field.name).map (fun o => o.getD []) := by
      simp [List.map_map, Function.comp]
    rw [hmap]
    have hsub : ((form.filter contributes).map Field.name).Nodup :=
      List.Nodup.sublist ((List.filter_sublist form).map Field.name) hnodup
    refine List.Nodup.map_on ?_ hsub
    intro x hx y hy hxy
    rw [List.mem_map] at hx hy
    obtain ⟨f, hf, rfl⟩ := hx
    obtain ⟨g, hg, rfl⟩ := hy
    obtain ⟨n, hn, _⟩ := hnames1 f (List.mem_of_mem_filter hf)
    obtain ⟨m, hm, _⟩ := hnames1 g (List.mem_of_mem_filter hg)
    rw [hn, hm] at hxy ⊢
    simp only [Option.getD_some] at hxy
    rw [hxy]
  have hdata : objectFromEntries (formDataEntries form)
      = propertyOrder ((form.filter contributes).map
          (fun field => (field.name.getD [], toScalarValueString field.value))) := by
    rw [formDataEntries_named form hnames1, objectFromEntries_nodup _ hkeys]
  rw [hdata] at htext hjson
  have hperm := propertyOrder_perm ((form.filter contributes).map
    (fun field => (field.name.getD [], toScalarValueString field.value)))
  have hpermE := hperm.map (fun e : JSString × JSString => (e.1, JSVal.str e.2))
  have hkeysE : (((propertyOrder ((form.filter contributes).map
      (fun field => (field.name.getD [], toScalarValueString field.value)))).map
      (fun e => (e.1, JSVal.str e.2))).map Prod.fst).Nodup := by
    rw [List.map_map]
    have : (Prod.fst ∘ fun e : JSString × JSString => (e.1, JSVal.str e.2)) = Prod.fst := rfl
    rw [this]
    exact (hperm.map Prod.fst).nodup_iff.mpr hkeys
  have hfrom : ∀ x ∈ (propertyOrder ((form.filter contributes).map
      (fun field => (field.name.getD [], toScalarValueString field.value)))).map
      (fun e => (e.1, JSVal.str e.2)),
      ∃ g ∈ form, contributes g = true ∧ g.name = some x.1 := by
    intro x hx
    rw [hpermE.mem_iff, List.map_map, List.mem_map] at hx
    obtain ⟨g, hg, rfl⟩ := hx
    obtain ⟨hgf, hgc⟩ := List.mem_filter.mp hg
    obtain ⟨m, hm, _⟩ := hnames1 g hgf
    exact ⟨g, hgf, hgc, by simp only [Function.comp, hm, Option.getD_some]⟩
  have hsafe : ∀ e ∈ (propertyOrder ((form.filter contributes).map
      (fun field => (field.name.getD [], toScalarValueString field.value)))).map
      (fun e => (e.1, JSVal.str e.2)), selectorSafe e.1 = true := by
    intro e he
    obtain ⟨g, hg, _, hgn⟩ := hfrom e he
    obtain ⟨n, hn, _, hs, _⟩ := hnames g hg
    rw [hn, Option.some.injEq] at hgn
    rw [← hgn]
    exact hs
  have hin : ∀ field ∈ form, contributes field = true →
      ∃ n, field.name = some n ∧ (n, JSVal.str (toScalarValueString field.value)) ∈
        (propertyOrder ((form.filter contributes).map
          (fun field => (field.name.getD [], toScalarValueString field.value)))).map
          (fun e => (e.1, JSVal.str e.2)) := by
    intro f hf hc
    obtain ⟨n, hn, _⟩ := hnames1 f hf
    refine ⟨n, hn, ?_⟩
    rw [hpermE.mem_iff, List.map_map, List.mem_map]
    exact ⟨f, List.mem_filter.mpr ⟨hf, hc⟩,
      by simp only [Function.comp, hn, Option.getD_some]⟩
  have hout : ∀ field ∈ form, ¬ contributes field = true →
      ∀ x ∈ (propertyOrder ((form.filter contributes).map
        (fun field => (field.name.getD [], toScalarValueString field.value)))).map
        (fun e => (e.1, JSVal.str e.2)), field.name ≠ some x.1 := by
    intro f hf hc x hx hfx
    obtain ⟨g, hg, hgc, hgn⟩ := hfrom x hx
    have hfg : f = g := List.inj_on_of_nodup_map hnodup hf hg (by rw [hfx, hgn])
    rw [hfg] at hc
    exact hc hgc
  have hnodupE : (edited.map Field.name).Nodup := by rw [hedit]; exact hnodup
  have hrestored := map_restoreFrom_eq H _ hkeysE form edited hedit hin hout
  have hlen : edited.length = form.length := by
    have := congrArg List.length hedit
    simpa using this
  have hload : loadFormData H (editForm (saveFormData H page formId) formId edited) formId
      = Completion.normal
        { editForm (saveFormData H page formId) formId edited with
          forms := Function.update (editForm (saveFormData H page formId) formId edited).forms
            formId (some (List.zipWith restoreSaved form edited)) } := by
    unfold loadFormData editForm saveFormData
    simp only [hform, hdata, Function.update_same, htext, if_false]
    unfold loadFormDataTry
    simp only [hjson, Function.update_same, objectEntries, loadEntries_safe H edited _ hsafe,
      applyEntries_eq_map H edited _ hnodupE hkeysE, hrestored]
  exact ⟨_, hload, by simp only [Function.update_same],
    zipWith_restoreSaved_value form edited hlen⟩

/-- C3 (amended) at a concrete input: the form with the controls `first` and
`last` and the disabled control `role`, saved with `Ada`, `Lovelace` and
`admin`, edited to `x`, `y` and `z`, then loaded: it holds `Ada`, `Lovelace`
and `z`. -/
theorem saveFormData_loadFormData_roundtrip_witness :
    List.zipWith restoreSaved (profileForm (utf16 "Ada") (utf16 "Lovelace") (utf16 "admin"))
        (profileForm (utf16 "x") (utf16 "y") (utf16 "z"))
      = profileForm (utf16 "Ada") (utf16 "Lovelace") (utf16 "z") ∧
    ∃ after,
      loadFormData asciiHost
          (editForm
            (saveFormData asciiHost
              (pageWith (profileForm (utf16 "Ada") (utf16 "Lovelace") (utf16 "admin"))
                (fun _ => none))
              (utf16 "f"))
            (utf16 "f") (profileForm (utf16 "x") (utf16 "y") (utf16 "z")))
          (utf16 "f")
        = Completion.normal after ∧
      after.forms (utf16 "f")
        = some (List.zipWith restoreSaved
            (profileForm (utf16 "Ada") (utf16 "Lovelace") (utf16 "admin"))
            (profileForm (utf16 "x") (utf16 "y") (utf16 "z"))) ∧
      ((∀ field ∈ profileForm (utf16 "Ada") (utf16 "Lovelace") (utf16 "admin"),
          contributes field = true ∧ toScalarValueString field.value = field.value) →
        (List.zipWith restoreSaved
            (profileForm (utf16 "Ada") (utf16 "Lovelace") (utf16 "admin"))
            (profileForm (utf16 "x") (utf16 "y") (utf16 "z"))).map Field.value
          = (profileForm (utf16 "Ada") (utf16 "Lovelace") (utf16 "admin")).map Field.value) :=
  ⟨by decide,
   saveFormData_loadFormData_roundtrip asciiHost
    (pageWith (profileForm (utf16 "Ada") (utf16 "Lovelace") (utf16 "admin")) (fun _ => none))
    (utf16 "f")
    (profileForm (utf16 "Ada") (utf16 "Lovelace") (utf16 "admin"))
    (profileForm (utf16 "x") (utf16 "y") (utf16 "z"))
    (by decide)
    (by
      intro field hf
      simp only [profileForm, List.mem_cons, List.mem_singleton, List.not_mem_nil,
        or_false] at hf
      rcases hf with rfl | rfl | rfl
      · exact ⟨utf16 "first", rfl, by decide, by decide, by decide⟩
      · exact ⟨utf16 "last", rfl, by decide, by decide, by decide⟩
      · exact ⟨utf16 "role", rfl, by decide, by decide, by decide⟩)
    (by decide) (by decide) (by decide) rfl⟩

/-! ## Email validation -/

theorem matchItems_nil_iff (s : JSString) : matchItems [] s = true ↔ s = [] := by
  cases s <;> simp [matchItems]

theorem matchItems_lit_iff (c : Nat) (rest : List Item) (s : JSString) :
    matchItems (Item.lit c :: rest) s = true ↔ ∃ b, s = c :: b ∧ matchItems rest b = true := by
  cases s with
  | nil => simp [matchItems]
  | cons x xs =>
    simp only [matchItems, Bool.and_eq_true, beq_iff_eq, List.cons.injEq]
    constructor
    · rintro ⟨rfl, h⟩
      exact ⟨xs, ⟨rfl, rfl⟩, h⟩
    · rintro ⟨b, ⟨rfl, rfl⟩, h⟩
      exact ⟨rfl, h⟩

theorem matchItems_plus_iff (cls : Nat → Bool) (rest : List Item) (s : JSString) :
    matchItems (Item.plus cls :: rest) s = true ↔
      ∃ a b, s = a ++ b ∧ a ≠ [] ∧ (∀ c ∈ a, cls c = true) ∧ matchItems rest b = true := by
  induction s with
  | nil =>
    simp only [matchItems, Bool.false_eq_true, false_iff]
    rintro ⟨a, b, hab, ha, _⟩
    cases a with
    | nil => exact ha rfl
    | cons y ys => simp at hab
  | cons x xs ih =>
    simp only [matchItems, Bool.and_eq_true, Bool.or_eq_true]
    constructor
    · rintro ⟨hx, h | h⟩
      · obtain ⟨a, b, hab, _, hall, hb⟩ := ih.mp h
        refine ⟨x :: a, b, by rw [hab]; rfl, by simp, ?_, hb⟩
        intro c hc
        rcases List.mem_cons.mp hc with rfl | hc
        · exact hx
        · exact hall c hc
      · refine ⟨[x], xs, rfl, by simp, ?_, h⟩
        intro c hc
        rw [List.mem_singleton] at hc
        rw [hc]
        exact hx
    · rintro ⟨a, b, hab, ha, hall, hb⟩
      cases a with
      | nil => exact absurd rfl ha
      | cons y ys =>
        simp only [List.cons_append, List.cons.injEq] at hab
        obtain ⟨rfl, rfl⟩ := hab
        refine ⟨hall x (List.mem_cons_self _ _), ?_⟩
        cases ys with
        | nil => exact Or.inr hb
        | cons z zs =>
          refine Or.inl (ih.mpr ⟨z :: zs, b, rfl, by simp, ?_, hb⟩)
          intro c hc
          exact hall c (List.mem_cons_of_mem _ hc)

theorem validateEmail_iff_parts (text : JSString) :
    validateEmail text = true ↔
      ∃ l d t, text = l ++ AT :: (d ++ DOT :: t) ∧ l ≠ [] ∧ d ≠ [] ∧ t ≠ [] ∧
        (∀ c ∈ l, notSpaceNorAt c = true) ∧ (∀ c ∈ d, notSpaceNorAt c = true) ∧
        (∀ c ∈ t, notSpaceNorAt c = true) := by
  unfold validateEmail emailRe
  constructor
  · intro h
    obtain ⟨l, r1, h1, hl, hlall, h⟩ := (matchItems_plus_iff _ _ _).mp h
    obtain ⟨r2, h2, h⟩ := (matchItems_lit_iff _ _ _).mp h
    obtain ⟨d, r3, h3, hd, hdall, h⟩ := (matchItems_plus_iff _ _ _).mp h
    obtain ⟨r4, h4, h⟩ := (matchItems_lit_iff _ _ _).mp h
    obtain ⟨t, r5, h5, ht, htall, h⟩ := (matchItems_plus_iff _ _ _).mp h
    have h6 := (matchItems_nil_iff _).mp h
    refine ⟨l, d, t, ?_, hl, hd, ht, hlall, hdall, htall⟩
    rw [h1, h2, h3, h4, h5, h6, List.append_nil]
  · rintro ⟨l, d, t, rfl, hl, hd, ht, hlall, hdall, htall⟩
    refine (matchItems_plus_iff _ _ _).mpr ⟨l, _, rfl, hl, hlall, ?_⟩
    refine (matchItems_lit_iff _ _ _).mpr ⟨_, rfl, ?_⟩
    refine (matchItems_plus_iff _ _ _).mpr ⟨d, _, rfl, hd, hdall, ?_⟩
    refine (matchItems_lit_iff _ _ _).mpr ⟨_, rfl, ?_⟩
    refine (matchItems_plus_iff _ _ _).mpr ⟨t, [], (List.append_nil t).symm, ht, htall, ?_⟩
    exact (matchItems_nil_iff _).mpr rfl

theorem notSpaceNorAt_iff (c : Nat) :
    notSpaceNorAt c = true ↔ isWhiteSpace c = false ∧ c ≠ AT := by
  simp [notSpaceNorAt]

/-- C2 (the claim fails): `@b.co` and `a@b.` have no whitespace, one `@` and a
`.` after it, and `validateEmail` rejects both. -/
theorem validateEmail_rejects_empty_parts :
    emailShapeOfSpec (utf16 "@b.co") = true ∧ validateEmail (utf16 "@b.co") = false ∧
    emailShapeOfSpec (utf16 "a@b.") = true ∧ validateEmail (utf16 "a@b.") = false := by
  decide

/-- C2 (amended): `validateEmail(text)` is true exactly when the text has no
whitespace, exactly one `@`, and reads `l@d.t` with `l`, `d` and `t` all
non-empty; so `a@b.co` is accepted, `not-an-email` and `a@b` are rejected. -/
theorem validateEmail_iff :
    (∀ text : JSString,
      validateEmail text = true ↔
        ((∀ c ∈ text, isWhiteSpace c = false) ∧ text.count AT = 1 ∧
          ∃ l d t, text = l ++ AT :: (d ++ DOT :: t) ∧ l ≠ [] ∧ d ≠ [] ∧ t ≠ [])) ∧
    validateEmail (utf16 "a@b.co") = true ∧
    validateEmail (utf16 "not-an-email") = false ∧
    validateEmail (utf16 "a@b") = false := by
  refine ⟨?_, by decide, by decide, by decide⟩
  intro text
  rw [validateEmail_iff_parts]
  have hAT : isWhiteSpace AT = false := by decide
  have hDOT : isWhiteSpace DOT = false := by decide
  have hne : DOT ≠ AT := by decide
  constructor
  · rintro ⟨l, d, t, rfl, hl, hd, ht, hlall, hdall, htall⟩
    refine ⟨?_, ?_, l, d, t, rfl, hl, hd, ht⟩
    · intro c hc
      simp only [List.mem_append, List.mem_cons] at hc
      rcases hc with hc | rfl | hc | rfl | hc
      · exact ((notSpaceNorAt_iff c).mp (hlall c hc)).1
      · exact hAT
      · exact ((notSpaceNorAt_iff c).mp (hdall c hc)).1
      · exact hDOT
      · exact ((notSpaceNorAt_iff c).mp (htall c hc)).1
    · have h0 : ∀ w : JSString, (∀ c ∈ w, notSpaceNorAt c = true) → w.count AT = 0 := by
        intro w hw
        rw [List.count_eq_zero]
        intro hmem
        exact ((notSpaceNorAt_iff AT).mp (hw AT hmem)).2 rfl
      rw [List.count_append, List.count_cons, List.count_append, List.count_cons,
        h0 l hlall, h0 d hdall, h0 t htall]
      simp [hne]
  · rintro ⟨hws, hcount, l, d, t, rfl, hl, hd, ht⟩
    rw [List.count_append, List.count_cons, List.count_append, List.count_cons] at hcount
    simp only [beq_self_eq_true, if_true] at hcount
    have hl0 : l.count AT = 0 := by omega
    have hd0 : d.count AT = 0 := by omega
    have ht0 : t.count AT = 0 := by omega
    rw [List.count_eq_zero] at hl0 hd0 ht0
    refine ⟨l, d, t, rfl, hl, hd, ht, ?_, ?_, ?_⟩
    · intro c hc
      refine (notSpaceNorAt_iff c).mpr ⟨hws c (by simp [hc]), ?_⟩
      rintro rfl
      exact hl0 hc
    · intro c hc
      refine (notSpaceNorAt_iff c).mpr ⟨hws c (by simp [hc]), ?_⟩
      rintro rfl
      exact hd0 hc
    · intro c hc
      refine (notSpaceNorAt_iff c).mpr ⟨hws c (by simp [hc]), ?_⟩
      rintro rfl
      exact ht0 hc

/-! ## Splitting and joining -/

theorem splitP_ne_nil (p : Nat → Bool) (s : JSString) : splitP p s ≠ [] := by
  cases s with
  | nil => simp [splitP]
  | cons c cs =>
    unfold splitP
    split_ifs
    · simp
    · cases splitP p cs <;> simp

theorem splitP_pieces (p : Nat → Bool) (s : JSString) :
    ∀ w ∈ splitP p s, ∀ c ∈ w, p c = false := by
  induction s with
  | nil =>
    intro w hw c hc
    simp only [splitP, List.mem_singleton] at hw
    rw [hw] at hc
    cases hc
  | cons x xs ih =>
    intro w hw c hc
    unfold splitP at hw
    by_cases hx : p x = true
    · rw [if_pos hx] at hw
      rcases List.mem_cons.mp hw with rfl | hw
      · cases hc
      · exact ih w hw c hc
    · rw [if_neg hx] at hw
      cases hsp : splitP p xs with
      | nil => exact absurd hsp (splitP_ne_nil p xs)
      | cons v vs =>
        rw [hsp] at hw ih
        rcases List.mem_cons.mp hw with rfl | hw
        · rcases List.mem_cons.mp hc with rfl | hc
          · simpa using hx
          · exact ih v (List.mem_cons_self _ _) c hc
        · exact ih w (List.mem_cons_of_mem _ hw) c hc

theorem splitP_of_none (p : Nat → Bool) (w : JSString) (h : ∀ c ∈ w, p c = false) :
    splitP p w = [w] := by
  induction w with
  | nil => rfl
  | cons x xs ih =>
    unfold splitP
    rw [if_neg (by simp [h x (List.mem_cons_self _ _)]),
      ih (fun c hc => h c (List.mem_cons_of_mem _ hc))]

theorem splitP_append_sep (p : Nat → Bool) (w t : JSString) (sep : Nat)
    (h : ∀ c ∈ w, p c = false) (hsep : p sep = true) :
    splitP p (w ++ sep :: t) = w :: splitP p t := by
  induction w with
  | nil =>
    rw [List.nil_append, splitP, if_pos hsep]
  | cons x xs ih =>
    rw [List.cons_append, splitP, if_neg (by simp [h x (List.mem_cons_self _ _)]),
      ih (fun c hc => h c (List.mem_cons_of_mem _ hc))]

theorem joinSpace_cons (w : JSString) (ws : List JSString) (h : ws ≠ []) :
    joinSpace (w :: ws) = w ++ SPACE :: joinSpace ws := by
  cases ws with
  | nil => exact absurd rfl h
  | cons v vs => rfl

theorem joinSpace_cons_cons (c : Nat) (w : JSString) (ws : List JSString) :
    joinSpace ((c :: w) :: ws) = c :: joinSpace (w :: ws) := by
  cases ws with
  | nil => rfl
  | cons v vs => rfl

theorem joinSpace_splitSpace (s : JSString) : joinSpace (splitSpace s) = s := by
  unfold splitSpace
  induction s with
  | nil => rfl
  | cons x xs ih =>
    unfold splitP
    by_cases hx : (x == SPACE) = true
    · rw [if_pos hx, joinSpace_cons _ _ (splitP_ne_nil _ xs), ih, List.nil_append]
      rw [beq_iff_eq] at hx
      rw [hx]
    · rw [if_neg hx]
      cases hsp : splitP (fun c => c == SPACE) xs with
      | nil => exact absurd hsp (splitP_ne_nil _ xs)
      | cons v vs =>
        rw [hsp] at ih
        show joinSpace ((x :: v) :: vs) = x :: xs
        rw [joinSpace_cons_cons, ih]

theorem splitSpace_joinSpace (ws : List JSString) (hne : ws ≠ [])
    (h : ∀ w ∈ ws, SPACE ∉ w) : splitSpace (joinSpace ws) = ws := by
  have hp : ∀ w ∈ ws, ∀ c ∈ w, (fun c => c == SPACE) c = false := by
    intro w hw c hc
    simp only [beq_eq_false_iff_ne, ne_eq]
    rintro rfl
    exact h w hw hc
  clear h
  unfold splitSpace
  induction ws with
  | nil => exact absurd rfl hne
  | cons w rest ih =>
    cases rest with
    | nil => exact splitP_of_none _ w (hp w (List.mem_cons_self _ _))
    | cons v vs =>
      rw [joinSpace_cons _ _ (by simp),
        splitP_append_sep _ w _ SPACE (hp w (List.mem_cons_self _ _)) (by simp),
        ih (by simp) (fun u hu => hp u (List.mem_cons_of_mem _ hu))]

theorem count_joinSpace (ws : List JSString) (hne : ws ≠ []) (h : ∀ w ∈ ws, SPACE ∉ w) :
    (joinSpace ws).count SPACE + 1 = ws.length := by
  induction ws with
  | nil => exact absurd rfl hne
  | cons w rest ih =>
    have hw : w.count SPACE = 0 := List.count_eq_zero.mpr (h w (List.mem_cons_self _ _))
    cases rest with
    | nil => simp [joinSpace, hw]
    | cons v vs =>
      have := ih (by simp) (fun u hu => h u (List.mem_cons_of_mem _ hu))
      rw [joinSpace_cons _ _ (by simp), List.count_append, List.count_cons_self, hw]
      simp only [List.length_cons] at this ⊢
      omega

theorem spaceMask_of_none (w : JSString) (h : SPACE ∉ w) :
    spaceMask w = List.replicate w.length false := by
  induction w with
  | nil => rfl
  | cons x xs ih =>
    have hx : x ≠ SPACE := fun hx => h (hx ▸ List.mem_cons_self _ _)
    have hxs : SPACE ∉ xs := fun hm => h (List.mem_cons_of_mem _ hm)
    simp only [spaceMask, List.map_cons, List.length_cons, List.replicate_succ,
      List.cons.injEq, beq_eq_false_iff_ne, ne_eq]
    exact ⟨hx, ih hxs⟩

theorem spaceMask_joinSpace_congr (ws vs : List JSString)
    (hlen : ws.map List.length = vs.map List.length)
    (hw : ∀ w ∈ ws, SPACE ∉ w) (hv : ∀ v ∈ vs, SPACE ∉ v) :
    spaceMask (joinSpace ws) = spaceMask (joinSpace vs) := by
  induction ws generalizing vs with
  | nil =>
    cases vs with
    | nil => rfl
    | cons v vs => simp at hlen
  | cons w rest ih =>
    cases vs with
    | nil => simp at hlen
    | cons v vrest =>
      simp only [List.map_cons, List.cons.injEq] at hlen
      have h1 : spaceMask w = spaceMask v := by
        rw [spaceMask_of_none w (hw w (List.mem_cons_self _ _)),
          spaceMask_of_none v (hv v (List.mem_cons_self _ _)), hlen.1]
      cases rest with
      | nil =>
        cases vrest with
        | nil => exact h1
        | cons u us => simp at hlen
      | cons r rs =>
        cases vrest with
        | nil => simp at hlen
        | cons u us =>
          have h2 := ih (u :: us) hlen.2 (fun x hx => hw x (List.mem_cons_of_mem _ hx))
            (fun x hx => hv x (List.mem_cons_of_mem _ hx))
          rw [joinSpace_cons w (r :: rs) (by simp), joinSpace_cons v (u :: us) (by simp)]
          unfold spaceMask at h1 h2 ⊢
          rw [List.map_append, List.map_append, List.map_cons, List.map_cons, h1, h2]

/-! ## Name formatting -/

theorem capitalize_no_space (H : Host)
    (hcase : ∀ w, SPACE ∉ w → SPACE ∉ H.toUpperCase w ∧ SPACE ∉ H.toLowerCase w)
    (w : JSString) (h : SPACE ∉ w) : SPACE ∉ capitalize H w := by
  unfold capitalize
  rw [List.mem_append]
  rintro (hm | hm)
  · exact (hcase (w.take 1) (fun hx => h (List.mem_of_mem_take hx))).1 hm
  · exact (hcase (w.drop 1) (fun hx => h (List.mem_of_mem_drop hx))).2 hm

theorem splitSpace_no_space (s : JSString) : ∀ w ∈ splitSpace s, SPACE ∉ w := by
  intro w hw hmem
  have := splitP_pieces (fun c => c == SPACE) s w hw SPACE hmem
  simp at this

theorem asciiHost_keeps_spaces (w : JSString) (h : SPACE ∉ w) :
    SPACE ∉ asciiHost.toUpperCase w ∧ SPACE ∉ asciiHost.toLowerCase w := by
  constructor
  · show SPACE ∉ asciiUpper w
    unfold asciiUpper
    rw [List.mem_map]
    rintro ⟨c, hc, heq⟩
    have hcne : c ≠ SPACE := fun hx => h (hx ▸ hc)
    unfold SPACE at heq hcne
    split_ifs at heq <;> omega
  · show SPACE ∉ asciiLower w
    unfold asciiLower
    rw [List.mem_map]
    rintro ⟨c, hc, heq⟩
    have hcne : c ≠ SPACE := fun hx => h (hx ▸ hc)
    unfold SPACE at heq hcne
    split_ifs at heq <;> omega

/-- C8 (the claim fails): with `İ` (U+0130) lower-casing to `i` followed by
U+0307, the value `İSMAİL HAKKI` becomes one unit longer in its first piece: the
space that stood at index 6 stands at index 7. -/
theorem formatName_moves_space :
    formatName specialCasingHost (utf16 "\u0130SMA\u0130L HAKKI")
      = utf16 "\u0130smai\u0307l Hakki" ∧
    (utf16 "\u0130SMA\u0130L HAKKI")[6]? = some SPACE ∧
    (formatName specialCasingHost (utf16 "\u0130SMA\u0130L HAKKI"))[6]? = some 0x6C ∧
    (formatName specialCasingHost (utf16 "\u0130SMA\u0130L HAKKI"))[7]? = some SPACE ∧
    spaceMask (formatName specialCasingHost (utf16 "\u0130SMA\u0130L HAKKI"))
      ≠ spaceMask (utf16 "\u0130SMA\u0130L HAKKI") := by
  decide

/-- C8 (amended): with a case mapping that never produces a space, `formatName`
replaces a non-empty value by its space-separated pieces, each with its first
unit upper-cased and the rest lower-cased, joined by single spaces; splitting
the result at spaces gives exactly those pieces (runs of spaces are not
collapsed) and the number of spaces is that of the input; the spaces stand at
the same positions when capitalising keeps the length of every piece;
`jOHN   smith` becomes `John   Smith`; the empty value stays empty. -/
theorem formatName_capitalizes_pieces (H : Host)
    (hcase : ∀ w, SPACE ∉ w → SPACE ∉ H.toUpperCase w ∧ SPACE ∉ H.toLowerCase w)
    (value : JSString) :
    (value ≠ [] →
      formatName H value = joinSpace ((splitSpace value).map (capitalize H)) ∧
      splitSpace (formatName H value) = (splitSpace value).map (capitalize H)) ∧
    (formatName H value).count SPACE = value.count SPACE ∧
    ((∀ w ∈ splitSpace value, (capitalize H w).length = w.length) →
      spaceMask (formatName H value) = spaceMask value) ∧
    formatName H [] = [] ∧
    formatName asciiHost (utf16 "jOHN   smith") = utf16 "John   Smith" := by
  have hpieces : ∀ w ∈ (splitSpace value).map (capitalize H), SPACE ∉ w := by
    intro w hw
    rw [List.mem_map] at hw
    obtain ⟨v, hv, rfl⟩ := hw
    exact capitalize_no_space H hcase v (splitSpace_no_space value v hv)
  have hne : (splitSpace value).map (capitalize H) ≠ [] := by
    simpa using splitP_ne_nil _ value
  refine ⟨?_, ?_, ?_, rfl, by decide⟩
  · intro hv
    have hfmt : formatName H value = joinSpace ((splitSpace value).map (capitalize H)) := by
      unfold formatName
      rw [if_neg (by simpa using hv)]
    exact ⟨hfmt, by rw [hfmt, splitSpace_joinSpace _ hne hpieces]⟩
  · by_cases hv : value = []
    · rw [hv]
      rfl
    · have hfmt : formatName H value = joinSpace ((splitSpace value).map (capitalize H)) := by
        unfold formatName
        rw [if_neg (by simpa using hv)]
      have h1 := count_joinSpace _ hne hpieces
      have h2 := count_joinSpace (splitSpace value) (splitP_ne_nil _ value)
        (splitSpace_no_space value)
      rw [joinSpace_splitSpace] at h2
      rw [hfmt]
      rw [List.length_map] at h1
      omega
  · intro hlen
    by_cases hv : value = []
    · rw [hv]
      rfl
    · have hfmt : formatName H value = joinSpace ((splitSpace value).map (capitalize H)) := by
        unfold formatName
        rw [if_neg (by simpa using hv)]
      rw [hfmt]
      conv_rhs => rw [← joinSpace_splitSpace value]
      apply spaceMask_joinSpace_congr _ _ _ hpieces (splitSpace_no_space value)
      rw [List.map_map]
      apply List.map_congr_left
      intro w hw
      exact hlen w hw

/-- C8 (amended) at a concrete input: ASCII case mapping and the value
`jOHN   smith`. -/
theorem formatName_capitalizes_pieces_witness :
    (utf16 "jOHN   smith" ≠ [] →
      formatName asciiHost (utf16 "jOHN   smith")
        = joinSpace ((splitSpace (utf16 "jOHN   smith")).map (capitalize asciiHost)) ∧
      splitSpace (formatName asciiHost (utf16 "jOHN   smith"))
        = (splitSpace (utf16 "jOHN   smith")).map (capitalize asciiHost)) ∧
    (formatName asciiHost (utf16 "jOHN   smith")).count SPACE
      = (utf16 "jOHN   smith").count SPACE ∧
    ((∀ w ∈ splitSpace (utf16 "jOHN   smith"), (capitalize asciiHost w).length = w.length) →
      spaceMask (formatName asciiHost (utf16 "jOHN   smith"))
        = spaceMask (utf16 "jOHN   smith")) ∧
    formatName asciiHost [] = [] ∧
    formatName asciiHost (utf16 "jOHN   smith") = utf16 "John   Smith" :=
  formatName_capitalizes_pieces asciiHost asciiHost_keeps_spaces (utf16 "jOHN   smith")

/-! ## Whitespace cleanup -/

theorem isWhiteSpace_SPACE : isWhiteSpace SPACE = true := by decide

theorem noDoubleSpace_cons (c : Nat) (s : JSString) :
    NoDoubleSpace (c :: s) ↔ (c = SPACE → s.head? ≠ some SPACE) ∧ NoDoubleSpace s := by
  unfold NoDoubleSpace
  constructor
  · intro h
    refine ⟨fun hc => ?_, fun i hi => ?_⟩
    · have := h 0 (by rw [List.getElem?_cons_zero, hc])
      rwa [List.getElem?_cons_succ, ← List.head?_eq_getElem?] at this
    · have := h (i + 1) (by rwa [List.getElem?_cons_succ])
      rwa [List.getElem?_cons_succ] at this
  · rintro ⟨h0, hs⟩ i hi
    cases i with
    | zero =>
      rw [List.getElem?_cons_zero, Option.some.injEq] at hi
      rw [List.getElem?_cons_succ, ← List.head?_eq_getElem?]
      exact h0 hi
    | succ k =>
      rw [List.getElem?_cons_succ] at hi ⊢
      exact hs k hi

theorem noDoubleSpace_nil : NoDoubleSpace [] := by
  intro i hi
  simp at hi

theorem noDoubleSpace_of_append_left (a b : JSString) (h : NoDoubleSpace (a ++ b)) :
    NoDoubleSpace a := by
  intro i hi
  have hlt : i < a.length := by
    by_contra hge
    rw [List.getElem?_eq_none (by omega)] at hi
    cases hi
  have h1 := h i (by rw [List.getElem?_append_left hlt]; exact hi)
  by_cases h2 : i + 1 < a.length
  · rwa [List.getElem?_append_left h2] at h1
  · rw [List.getElem?_eq_none (by omega)]
    simp

theorem noDoubleSpace_of_append_right (a b : JSString) (h : NoDoubleSpace (a ++ b)) :
    NoDoubleSpace b := by
  induction a with
  | nil => exact h
  | cons x xs ih =>
    rw [List.cons_append, noDoubleSpace_cons] at h
    exact ih h.2

theorem trimStart_suffix (s : JSString) :
    ∃ t, s = t ++ trimStart s ∧ ∀ c ∈ t, isWhiteSpace c = true := by
  induction s with
  | nil => exact ⟨[], rfl, by simp⟩
  | cons x xs ih =>
    unfold trimStart
    by_cases hx : isWhiteSpace x = true
    · obtain ⟨t, ht, hall⟩ := ih
      rw [if_pos hx]
      refine ⟨x :: t, by rw [List.cons_append, ← ht], ?_⟩
      intro c hc
      rcases List.mem_cons.mp hc with rfl | hc
      · exact hx
      · exact hall c hc
    · rw [if_neg hx]
      exact ⟨[], rfl, by simp⟩

theorem trimEnd_prefix (s : JSString) :
    ∃ t, s = trimEnd s ++ t ∧ ∀ c ∈ t, isWhiteSpace c = true := by
  induction s with
  | nil => exact ⟨[], rfl, by simp⟩
  | cons x xs ih =>
    obtain ⟨t, ht, hall⟩ := ih
    unfold trimEnd
    cases hte : trimEnd xs with
    | nil =>
      rw [hte, List.nil_append] at ht
      by_cases hx : isWhiteSpace x = true
      · simp only [hx, if_true]
        refine ⟨x :: xs, rfl, ?_⟩
        intro c hc
        rcases List.mem_cons.mp hc with rfl | hc
        · exact hx
        · exact hall c (ht ▸ hc)
      · simp only [hx]
        exact ⟨t, by rw [ht]; rfl, hall⟩
    | cons r rs =>
      rw [hte] at ht
      exact ⟨t, by rw [ht]; rfl, hall⟩

theorem trimStart_head (s : JSString) :
    ∀ c, (trimStart s).head? = some c → isWhiteSpace c = false := by
  induction s with
  | nil => simp [trimStart]
  | cons x xs ih =>
    unfold trimStart
    by_cases hx : isWhiteSpace x = true
    · rw [if_pos hx]
      exact ih
    · rw [if_neg hx]
      intro c hc
      rw [List.head?_cons, Option.some.injEq] at hc
      rw [← hc]
      simpa using hx

theorem trimEnd_last (s : JSString) :
    ∀ c, (trimEnd s).getLast? = some c → isWhiteSpace c = false := by
  induction s with
  | nil => simp [trimEnd]
  | cons x xs ih =>
    unfold trimEnd
    cases hte : trimEnd xs with
    | nil =>
      by_cases hx : isWhiteSpace x = true
      · simp [hx]
      · simp only [hx]
        intro c hc
        simp only [Bool.false_eq_true, if_false, List.getLast?_singleton,
          Option.some.injEq] at hc
        rw [← hc]
        simpa using hx
    | cons r rs =>
      rw [hte] at ih
      intro c hc
      simp only [List.getLast?_cons_cons] at hc
      exact ih c hc

theorem trim_head (s : JSString) :
    ∀ c, (trim s).head? = some c → isWhiteSpace c = false := by
  intro c hc
  unfold trim at hc
  obtain ⟨t, ht, _⟩ := trimEnd_prefix (trimStart s)
  apply trimStart_head s c
  cases hte : trimEnd (trimStart s) with
  | nil =>
    rw [hte] at hc
    cases hc
  | cons r rs =>
    rw [hte] at hc ht
    rw [ht]
    exact hc

theorem mem_of_mem_trim (s : JSString) (c : Nat) (h : c ∈ trim s) : c ∈ s := by
  unfold trim at h
  obtain ⟨t, ht, _⟩ := trimEnd_prefix (trimStart s)
  obtain ⟨u, hu, _⟩ := trimStart_suffix s
  rw [hu, ht]
  simp [h]

theorem noDoubleSpace_trim (s : JSString) (h : NoDoubleSpace s) : NoDoubleSpace (trim s) := by
  unfold trim
  obtain ⟨t, ht, _⟩ := trimEnd_prefix (trimStart s)
  obtain ⟨u, hu, _⟩ := trimStart_suffix s
  rw [hu] at h
  have h1 := noDoubleSpace_of_append_right _ _ h
  rw [ht] at h1
  exact noDoubleSpace_of_append_left _ _ h1

theorem replaceRuns_whitespace (flag : Bool) (s : JSString) :
    ∀ c ∈ replaceRuns flag s, isWhiteSpace c = true → c = SPACE := by
  induction s generalizing flag with
  | nil => simp [replaceRuns]
  | cons x xs ih =>
    intro c hc hws
    unfold replaceRuns at hc
    by_cases hx : isWhiteSpace x = true
    · rw [if_pos hx] at hc
      cases flag with
      | true =>
        simp only [if_true] at hc
        exact ih true c hc hws
      | false =>
        simp only [Bool.false_eq_true, if_false] at hc
        rcases List.mem_cons.mp hc with rfl | hc
        · rfl
        · exact ih true c hc hws
    · rw [if_neg hx] at hc
      rcases List.mem_cons.mp hc with rfl | hc
      · exact absurd hws hx
      · exact ih false c hc hws

theorem replaceRuns_true_head (s : JSString) :
    ∀ c, (replaceRuns true s).head? = some c → isWhiteSpace c = false := by
  induction s with
  | nil => simp [replaceRuns]
  | cons x xs ih =>
    unfold replaceRuns
    by_cases hx : isWhiteSpace x = true
    · simp only [hx, if_true]
      exact ih
    · simp only [hx]
      intro c hc
      simp only [Bool.false_eq_true, if_false, List.head?_cons, Option.some.injEq] at hc
      rw [← hc]
      simpa using hx

theorem noDoubleSpace_replaceRuns (flag : Bool) (s : JSString) :
    NoDoubleSpace (replaceRuns flag s) := by
  induction s generalizing flag with
  | nil => exact noDoubleSpace_nil
  | cons x xs ih =>
    unfold replaceRuns
    by_cases hx : isWhiteSpace x = true
    · rw [if_pos hx]
      cases flag with
      | true =>
        simp only [if_true]
        exact ih true
      | false =>
        simp only [Bool.false_eq_true, if_false]
        rw [noDoubleSpace_cons]
        refine ⟨fun _ hh => ?_, ih true⟩
        have := replaceRuns_true_head xs SPACE hh
        rw [isWhiteSpace_SPACE] at this
        cases this
    · rw [if_neg hx, noDoubleSpace_cons]
      refine ⟨fun hc => ?_, ih false⟩
      rw [hc, isWhiteSpace_SPACE] at hx
      exact absurd rfl hx

theorem words_cons_of_whiteSpace (c : Nat) (s : JSString) (h : isWhiteSpace c = true) :
    words (c :: s) = words s := by
  unfold words
  rw [splitP, if_pos h]
  rfl

theorem splitP_cons_of_not (p : Nat → Bool) (c : Nat) (s h : JSString) (t : List JSString)
    (hc : ¬ p c = true) (hs : splitP p s = h :: t) : splitP p (c :: s) = (c :: h) :: t := by
  rw [splitP, if_neg hc, hs]

theorem samePieces_filter (xs ys : List JSString) (h : SamePieces xs ys) :
    xs.filter (fun w => !w.isEmpty) = ys.filter (fun w => !w.isEmpty) := by
  obtain ⟨a, t, u, rfl, rfl, htu⟩ := h
  simp only [List.filter_cons, htu]

theorem samePieces_refl (p : Nat → Bool) (s : JSString) :
    SamePieces (splitP p s) (splitP p s) := by
  cases hsp : splitP p s with
  | nil => exact absurd hsp (splitP_ne_nil p s)
  | cons a t => exact ⟨a, t, t, rfl, rfl, rfl⟩

theorem replaceRuns_pieces (s : JSString) :
    words (replaceRuns true s) = words s ∧
    SamePieces (splitP isWhiteSpace (replaceRuns false s)) (splitP isWhiteSpace s) := by
  induction s with
  | nil => exact ⟨rfl, samePieces_refl _ _⟩
  | cons x xs ih =>
    obtain ⟨ih1, ih2⟩ := ih
    by_cases hx : isWhiteSpace x = true
    · constructor
      · rw [replaceRuns, if_pos hx, if_pos rfl, ih1, words_cons_of_whiteSpace x xs hx]
      · rw [replaceRuns, if_pos hx, if_neg (by simp), splitP, if_pos isWhiteSpace_SPACE,
          splitP, if_pos hx]
        exact ⟨[], _, _, rfl, rfl, ih1⟩
    · obtain ⟨a, t, u, h1, h2, htu⟩ := ih2
      have e1 := splitP_cons_of_not isWhiteSpace x _ a t hx h1
      have e2 := splitP_cons_of_not isWhiteSpace x _ a u hx h2
      constructor
      · rw [replaceRuns, if_neg hx]
        unfold words
        rw [e1, e2]
        simp only [List.filter_cons, htu]
      · rw [replaceRuns, if_neg hx, e1, e2]
        exact ⟨x :: a, t, u, rfl, rfl, htu⟩

theorem words_replaceRuns (s : JSString) : words (replaceRuns false s) = words s :=
  samePieces_filter _ _ (replaceRuns_pieces s).2

theorem splitP_all (p : Nat → Bool) (t : JSString) (h : ∀ c ∈ t, p c = true) :
    splitP p t = [] :: List.replicate t.length [] := by
  induction t with
  | nil => rfl
  | cons x xs ih =>
    rw [splitP, if_pos (h x (List.mem_cons_self _ _)),
      ih (fun c hc => h c (List.mem_cons_of_mem _ hc))]
    rfl

theorem splitP_append_all (p : Nat → Bool) (a t : JSString) (h : ∀ c ∈ t, p c = true) :
    splitP p (a ++ t) = splitP p a ++ List.replicate t.length [] := by
  induction a with
  | nil => rw [List.nil_append, splitP_all p t h]; rfl
  | cons x xs ih =>
    rw [List.cons_append]
    by_cases hx : p x = true
    · rw [splitP, if_pos hx, ih, splitP, if_pos hx]
      rfl
    · cases hsp : splitP p xs with
      | nil => exact absurd hsp (splitP_ne_nil p xs)
      | cons w ws =>
        rw [hsp] at ih
        rw [splitP_cons_of_not p x _ w _ hx ih, splitP_cons_of_not p x _ w ws hx hsp]
        rfl

theorem words_append_whiteSpace (a t : JSString) (h : ∀ c ∈ t, isWhiteSpace c = true) :
    words (a ++ t) = words a := by
  unfold words
  rw [splitP_append_all _ a t h, List.filter_append, List.filter_replicate_of_neg (by simp),
    List.append_nil]

theorem words_whiteSpace_append (t a : JSString) (h : ∀ c ∈ t, isWhiteSpace c = true) :
    words (t ++ a) = words a := by
  induction t with
  | nil => rfl
  | cons x xs ih =>
    rw [List.cons_append, words_cons_of_whiteSpace _ _ (h x (List.mem_cons_self _ _)),
      ih (fun c hc => h c (List.mem_cons_of_mem _ hc))]

theorem words_trim (s : JSString) : words (trim s) = words s := by
  obtain ⟨t, ht, htall⟩ := trimEnd_prefix (trimStart s)
  obtain ⟨u, hu, huall⟩ := trimStart_suffix s
  have h1 : words (trimStart s) = words s := by
    conv_rhs => rw [hu]
    exact (words_whiteSpace_append u _ huall).symm
  have h2 : words (trim s) = words (trimStart s) := by
    conv_rhs => rw [ht]
    exact (words_append_whiteSpace _ t htall).symm
  rw [h2, h1]

theorem replaceRuns_fixed (flag : Bool) (s : JSString)
    (hws : ∀ c ∈ s, isWhiteSpace c = true → c = SPACE) (hno : NoDoubleSpace s)
    (hhead : flag = true → ∀ c, s.head? = some c → isWhiteSpace c = false) :
    replaceRuns flag s = s := by
  induction s generalizing flag with
  | nil => rfl
  | cons x xs ih =>
    rw [noDoubleSpace_cons] at hno
    have hws1 : ∀ c ∈ xs, isWhiteSpace c = true → c = SPACE :=
      fun c hc => hws c (List.mem_cons_of_mem _ hc)
    by_cases hx : isWhiteSpace x = true
    · have hxs : x = SPACE := hws x (List.mem_cons_self _ _) hx
      have hflag : flag = false := by
        cases flag with
        | false => rfl
        | true =>
          have := hhead rfl x rfl
          rw [hx] at this
          cases this
      rw [hflag, replaceRuns, if_pos hx, if_neg (by simp), ← hxs]
      rw [ih true hws1 hno.2]
      intro _ c hc
      by_contra hcw
      have hcw1 : isWhiteSpace c = true := by simpa using hcw
      have hcs : c = SPACE := hws1 c (List.mem_of_mem_head? hc) hcw1
      rw [hcs] at hc
      exact hno.1 hxs hc
    · rw [replaceRuns, if_neg hx, ih false hws1 hno.2 (by simp)]

theorem trimStart_fixed (s : JSString)
    (h : ∀ c, s.head? = some c → isWhiteSpace c = false) : trimStart s = s := by
  cases s with
  | nil => rfl
  | cons x xs =>
    have hx := h x rfl
    rw [trimStart, if_neg (by simp [hx])]

theorem trimEnd_fixed (s : JSString)
    (h : ∀ c, s.getLast? = some c → isWhiteSpace c = false) : trimEnd s = s := by
  induction s with
  | nil => rfl
  | cons x xs ih =>
    cases xs with
    | nil =>
      have hx := h x rfl
      simp [trimEnd, hx]
    | cons y ys =>
      have h1 := ih (fun c hc => h c (by rw [List.getLast?_cons_cons]; exact hc))
      rw [trimEnd, h1]

/-- C9: the value left by `cleanSpaces` has no whitespace at either end, holds no
whitespace unit other than the space, has no two spaces next to each other, and
has the same words in the same order as the input; applying `cleanSpaces` again
changes nothing; `  a   b  ` becomes `a b`. -/
theorem cleanSpaces_normalizes (value : JSString) :
    (∀ c, (cleanSpaces value).head? = some c → isWhiteSpace c = false) ∧
    (∀ c, (cleanSpaces value).getLast? = some c → isWhiteSpace c = false) ∧
    (∀ c ∈ cleanSpaces value, isWhiteSpace c = true → c = SPACE) ∧
    (∀ i, (cleanSpaces value)[i]? = some SPACE → (cleanSpaces value)[i + 1]? ≠ some SPACE) ∧
    words (cleanSpaces value) = words value ∧
    cleanSpaces (cleanSpaces value) = cleanSpaces value ∧
    cleanSpaces (utf16 "  a   b  ") = utf16 "a b" := by
  have hclean : cleanSpaces value = trim (replaceRuns false value) := by
    unfold cleanSpaces
    cases value with
    | nil => rfl
    | cons x xs => rfl
  have h1 : ∀ c, (cleanSpaces value).head? = some c → isWhiteSpace c = false := by
    rw [hclean]
    exact trim_head _
  have h2 : ∀ c, (cleanSpaces value).getLast? = some c → isWhiteSpace c = false := by
    rw [hclean]
    exact trimEnd_last _
  have h3 : ∀ c ∈ cleanSpaces value, isWhiteSpace c = true → c = SPACE := by
    rw [hclean]
    intro c hc
    exact replaceRuns_whitespace false value c (mem_of_mem_trim _ c hc)
  have h4 : NoDoubleSpace (cleanSpaces value) := by
    rw [hclean]
    exact noDoubleSpace_trim _ (noDoubleSpace_replaceRuns false value)
  refine ⟨h1, h2, h3, h4, ?_, ?_, by decide⟩
  · rw [hclean, words_trim, words_replaceRuns]
  · have hagain : cleanSpaces (cleanSpaces value)
        = trim (replaceRuns false (cleanSpaces value)) := by
      unfold cleanSpaces
      cases hcv : (if value.isEmpty = true then value
          else trim (replaceRuns false value)) with
      | nil => rfl
      | cons x xs => rfl
    rw [hagain, replaceRuns_fixed false _ h3 h4 (by simp)]
    unfold trim
    rw [trimStart_fixed _ h1, trimEnd_fixed _ h2]

end LinkedBoost
